import Mathlib

/-!
Shallow embedding of `src/main.py` of the `tui-reader` repository.

The embedding works on `List Char` / `String` for text, `Int` for Python
integers (with `Nat` for inherently nonnegative counters), association lists
for JSON dictionaries (Python dicts preserve insertion order, and assignment
overwrites the first binding in place), and `Option` for fallible parses.

`wrap_text` calls CPython `textwrap.wrap(text, width, replace_whitespace=False,
drop_whitespace=False)`; the remaining options keep their defaults
(`expand_tabs=True`, `tabsize=8`, `break_long_words=True`,
`break_on_hyphens=True`, `fix_sentence_endings=False`, empty indents, no
`max_lines`).  The splitter regex `wordsep_re` is embedded operationally; the
`\w` / `[^\d\W]` character classes are modelled over their ASCII fragment,
which coincides with Python for ASCII documents.
-/

set_option linter.unusedVariables false

namespace TuiReader

/-- The six characters of Python `string.whitespace` / `textwrap._whitespace`
(tab, newline, vertical tab, form feed, carriage return, space); `str.strip()`
and the `textwrap` word-separator class are modelled over this ASCII set. -/
def pyWsChar (c : Char) : Bool :=
  c = '\t' || c = '\n' || c = Char.ofNat 11 || c = Char.ofNat 12 || c = '\r' || c = ' '

/-- Python regex `\w` (ASCII fragment): letters, digits and underscore. -/
def pyWordChar (c : Char) : Bool := c.isAlphanum || c = '_'

/-- Python regex `[^\d\W]` (a word character that is not a digit). -/
def pyLetterChar (c : Char) : Bool := pyWordChar c && !c.isDigit

/-- The `word_punct` class of `textwrap.TextWrapper.wordsep_re`: a word
character or one of the punctuation characters in that regex. -/
def pyWordPunct (c : Char) : Bool :=
  pyWordChar c || c = '!' || c = '"' || c = Char.ofNat 39 || c = '&' ||
    c = '.' || c = ',' || c = '?'

/-- CPython `str.expandtabs(8)`: each tab becomes spaces up to the next
multiple-of-8 column; the column counter resets on a newline or carriage
return.  This is `TextWrapper._munge_whitespace` with the default
`expand_tabs=True` (`replace_whitespace` is passed as `False`). -/
def expandTabsFrom (col : Nat) : List Char → List Char
  | [] => []
  | c :: cs =>
    if c = '\t' then
      List.replicate (8 - col % 8) ' ' ++ expandTabsFrom (col + (8 - col % 8)) cs
    else if c = '\n' || c = '\r' then c :: expandTabsFrom 0 cs
    else c :: expandTabsFrom (col + 1) cs

/-- Length of the run of hyphens at the head of the list. -/
def leadingHyphens : List Char → Nat
  | c :: cs => if c = '-' then leadingHyphens cs + 1 else 0
  | [] => 0

/-- The em-dash alternative of `wordsep_re` at the current position
(the reversed prefix is `left`): the previous character belongs to
`word_punct`, and a run of two or more hyphens followed by a word character
starts here. -/
def emDashCond (left l : List Char) : Bool :=
  (match left with | p :: _ => pyWordPunct p | [] => false) &&
    decide (2 ≤ leadingHyphens l) &&
    (match l.drop (leadingHyphens l) with | c :: _ => pyWordChar c | [] => false)

/-- Lookbehind of the hyphenated-word break, evaluated just after the hyphen
was consumed; `left` is the reversed text read so far, so `left.head` is that
hyphen: two letters before it, or letter-hyphen-letter before it. -/
def hyphenLookbehind : List Char → Bool
  | d :: x :: y :: rest =>
    d = '-' && ((pyLetterChar x && pyLetterChar y) ||
      (pyLetterChar x && y = '-' &&
        (match rest with | z :: _ => pyLetterChar z | [] => false)))
  | _ => false

/-- Lookahead of the hyphenated-word break: a letter, an optional hyphen, and
another letter. -/
def hyphenLookahead : List Char → Bool
  | a :: b :: rest =>
    pyLetterChar a && (pyLetterChar b ||
      (b = '-' && (match rest with | z :: _ => pyLetterChar z | [] => false)))
  | _ => false

/-- End-of-word lookahead: whitespace or end of text. -/
def wordEndCond : List Char → Bool
  | [] => true
  | c :: _ => pyWsChar c

/-- A position where the non-greedy word alternative of `wordsep_re` may
stop: end of word, a hyphenated-word break, or an em-dash run ahead. -/
def wordStop (left rest : List Char) : Bool :=
  wordEndCond rest || (hyphenLookbehind left && hyphenLookahead rest) ||
    emDashCond left rest

def parseWordAux (left acc : List Char) : List Char → List Char × List Char
  | [] => (acc.reverse, [])
  | c :: cs =>
    if wordStop left (c :: cs) then (acc.reverse, c :: cs)
    else parseWordAux (c :: left) (c :: acc) cs

/-- One word chunk: consume at least one non-whitespace character, then
extend to the first stop position. -/
def parseWord (left : List Char) : List Char → List Char × List Char
  | [] => ([], [])
  | c :: cs => parseWordAux (c :: left) [c] cs

/-- Model of `TextWrapper._split` with `break_on_hyphens=True`: the text is cut into
whitespace runs, em-dash runs and (possibly hyphen-terminated) word chunks;
concatenating the chunks gives back the text.  `left` is the reversed prefix
already split (the regex lookbehinds read it).  The fuel, consumed once per
chunk, is instantiated with the text length, an upper bound on the number of
chunks since every chunk is nonempty. -/
def splitChunksFuel : Nat → List Char → List Char → List (List Char)
  | 0, _, _ => []
  | fuel + 1, left, l =>
    match l with
    | [] => []
    | c :: _ =>
      if pyWsChar c then
        l.takeWhile pyWsChar ::
          splitChunksFuel fuel ((l.takeWhile pyWsChar).reverse ++ left) (l.dropWhile pyWsChar)
      else if emDashCond left l then
        l.take (leadingHyphens l) ::
          splitChunksFuel fuel ((l.take (leadingHyphens l)).reverse ++ left)
            (l.drop (leadingHyphens l))
      else
        (parseWord left l).1 ::
          splitChunksFuel fuel ((parseWord left l).1.reverse ++ left) (parseWord left l).2

def splitChunks (l : List Char) : List (List Char) := splitChunksFuel l.length [] l

def joinLen (l : List (List Char)) : Nat := (l.map List.length).sum

/-- The greedy inner loop of `TextWrapper._wrap_chunks`: pop chunks onto the
current line while the line stays within `width`.  Returns the chunks taken
and the remaining chunks. -/
def greedyTake (width curLen : Nat) : List (List Char) → List (List Char) × List (List Char)
  | [] => ([], [])
  | c :: cs =>
    if curLen + c.length ≤ width then
      (c :: (greedyTake width (curLen + c.length) cs).1,
        (greedyTake width (curLen + c.length) cs).2)
    else ([], c :: cs)

/-- Python `str.rfind(c, 0, bound)` for a single character: the largest index below
`bound` holding `c`, if any. -/
def pyRFind (c : Char) (l : List Char) (bound : Nat) : Option Nat :=
  (List.range bound).reverse.find? (fun i => l.get? i == some c)

/-- The cut position computed by `TextWrapper._handle_long_word` with
`break_long_words=True` and `break_on_hyphens=True`: the remaining space on
the line, or just after the last hyphen inside that space when the part
before the hyphen contains a non-hyphen character. -/
def longWordEnd (width curLen : Nat) (chunk : List Char) : Nat :=
  let spaceLeft := if width < 1 then 1 else width - curLen
  if spaceLeft < chunk.length then
    match pyRFind '-' chunk spaceLeft with
    | some h => if decide (0 < h) && (chunk.take h).any (· != '-') then h + 1 else spaceLeft
    | none => spaceLeft
  else spaceLeft

/-- Model of `TextWrapper._handle_long_word`: chop the chunk at `longWordEnd`. -/
def handleLongWord (width curLen : Nat) (chunk : List Char) : List Char × List Char :=
  (chunk.take (longWordEnd width curLen chunk), chunk.drop (longWordEnd width curLen chunk))

/-- One iteration of the outer `_wrap_chunks` loop: fill greedily, then run
the long-word handler when the next chunk is wider than the whole line.
Returns the chunks of the current line and the remaining chunks. -/
def wrapStep (width : Nat) (chunks : List (List Char)) : List (List Char) × List (List Char) :=
  match greedyTake width 0 chunks with
  | (cur, []) => (cur, [])
  | (cur, c :: cs) =>
    if width < c.length then
      (cur ++ [(handleLongWord width (joinLen cur) c).1],
        (handleLongWord width (joinLen cur) c).2 :: cs)
    else (cur, c :: cs)

/-- Size measure on chunk lists: each chunk costs its length plus one.  Every
`_wrap_chunks` iteration with `width ≥ 1` strictly decreases it, so it bounds
the number of produced lines and serves as structural fuel. -/
def chunksSize (chunks : List (List Char)) : Nat := (chunks.map (fun c => c.length + 1)).sum

def wrapChunksFuel : Nat → Nat → List (List Char) → List (List Char)
  | 0, _, _ => []
  | fuel + 1, width, chunks =>
    match chunks with
    | [] => []
    | _ :: _ =>
      (if (wrapStep width chunks).1.isEmpty then [] else [(wrapStep width chunks).1.flatten]) ++
        wrapChunksFuel fuel width (wrapStep width chunks).2

/-- Model of `TextWrapper._wrap_chunks` with `drop_whitespace=False`, empty indents and
no `max_lines`.  Python raises `ValueError` for `width ≤ 0`; the program only
calls this with width 70, and every theorem assumes `1 ≤ width`. -/
def wrapChunks (width : Nat) (chunks : List (List Char)) : List (List Char) :=
  wrapChunksFuel (chunksSize chunks) width chunks

/-- The function `wrap_text(text, width)` from `main.py`: `textwrap.wrap(text, width=width,
replace_whitespace=False, drop_whitespace=False)`. -/
def wrap_text (text : String) (width : Nat) : List String :=
  (wrapChunks width (splitChunks (expandTabsFrom 0 text.data))).map String.mk

def max_width : Nat := 70

/-- The reflow loop of `ReaderApp.on_mount` / `ReaderApp._load_file` /
`build_library`: per paragraph, `wlines.extend(wrap_text(para, width))`
followed by `wlines.append("")`. -/
def reflow (paras : List String) (width : Nat) : List String :=
  paras.foldl (fun wlines para => wlines ++ wrap_text para width ++ [""]) []

/-- The `Reader` class: the reflowed lines and the scroll cursor.  Python
integers can go negative (`len(lines) - 1` on an empty document), so the
scroll is an `Int`. -/
structure Reader where
  lines : List String
  scroll : Int

/-- Method `Reader.scroll_down(n)`: `scroll = min(scroll + n, len(lines) - 1)`. -/
def Reader.scroll_down (r : Reader) (n : Int) : Reader :=
  { r with scroll := min (r.scroll + n) ((r.lines.length : Int) - 1) }

/-- Method `Reader.scroll_up(n)`: `scroll = max(scroll - n, 0)`. -/
def Reader.scroll_up (r : Reader) (n : Int) : Reader :=
  { r with scroll := max (r.scroll - n) 0 }

/-- A scroll request issued by the presentation layer. -/
inductive ScrollOp where
  | down (n : Int)
  | up (n : Int)

def ScrollOp.amount : ScrollOp → Int
  | .down n => n
  | .up n => n

def Reader.applyOp (r : Reader) : ScrollOp → Reader
  | .down n => r.scroll_down n
  | .up n => r.scroll_up n

def Reader.runOps (r : Reader) (ops : List ScrollOp) : Reader :=
  ops.foldl Reader.applyOp r

/-- Fueled floor of the base-2 logarithm of a natural number (the fuel is an
upper bound on the recursion depth; `natLog2` passes the number itself). -/
def natLog2Fuel : Nat → Nat → Nat
  | 0, _ => 0
  | fuel + 1, n => if n ≤ 1 then 0 else natLog2Fuel fuel (n / 2) + 1

/-- Floor of the base-2 logarithm of a positive natural number: for `1 ≤ n`,
`2 ^ natLog2 n ≤ n < 2 ^ (natLog2 n + 1)`. -/
def natLog2 (n : Nat) : Nat := natLog2Fuel n n

/-- Floor of the base-2 logarithm of the positive fraction `n / d`. -/
def floorLog2 (n d : Nat) : ℤ :=
  if d * 2 ^ natLog2 n ≤ n * 2 ^ natLog2 d then (natLog2 n : ℤ) - natLog2 d
  else (natLog2 n : ℤ) - natLog2 d - 1

/-- Nearest integer to the fraction `n / d`, ties to even (the rounding mode
of IEEE-754 binary64 arithmetic). -/
def roundEvenNat (n d : Nat) : Nat :=
  if 2 * (n % d) < d then n / d
  else if d < 2 * (n % d) then n / d + 1
  else if n / d % 2 = 0 then n / d else n / d + 1

/-- Binary exponent of the IEEE-754 binary64 value nearest to `n / d`. -/
def fl64Exp (n d : Nat) : ℤ := floorLog2 n d - 52

/-- Integer significand of the binary64 value nearest to `n / d`: the fraction
is scaled into `[2^52, 2^53)` and rounded to nearest, ties to even. -/
def fl64Mant (n d : Nat) : Nat :=
  if 0 ≤ fl64Exp n d then roundEvenNat n (d * 2 ^ (fl64Exp n d).toNat)
  else roundEvenNat (n * 2 ^ (-fl64Exp n d).toNat) d

/-- Exact rational value of the binary64 double nearest to `n / d`, i.e. of
the result of CPython's correctly rounded int-by-int true division. -/
def fl64Val (n d : Nat) : ℚ := (fl64Mant n d : ℚ) * 2 ^ fl64Exp n d

/-- Numerator of the fraction representing `m * 2 ^ e` exactly. -/
def scaleNum (m : Nat) (e : ℤ) : Nat := if 0 ≤ e then m * 2 ^ e.toNat else m

/-- Denominator of the fraction representing `m * 2 ^ e` exactly. -/
def scaleDen (e : ℤ) : Nat := if 0 ≤ e then 1 else 2 ^ (-e).toNat

/-- Floor of `m * 2 ^ e` for a natural significand `m`. -/
def floorScaled (m : Nat) (e : ℤ) : Nat := scaleNum m e / scaleDen e

/-- Progress computation of `build_library`,
`min(100, int((scroll / max(total - 1, 1)) * 100))`, modelling the IEEE-754
binary64 arithmetic Python uses.  `scroll / max(total - 1, 1)` is CPython's
correctly rounded true division of two ints (round to nearest, ties to even,
53-bit significand `fl64Mant`, binary exponent `fl64Exp`); `* 100` multiplies
that double by the exactly representable 100 - the exact product is the
fraction `scaleNum (100 * m1) e1 / scaleDen e1` - and rounds the product the
same way; `int()` truncates the nonnegative result toward zero, i.e. floors
it, and `min` clamps at 100.  The model rounds to 53 significant bits at
every magnitude, which matches binary64 wherever no intermediate value is
subnormal (below `2^-1022`) or infinite; with `total_lines ≤ 2^53` and
`scroll ≤ max (total_lines - 1) 1` every nonzero intermediate lies in
`[2^-53, 101]`, where the model is exact. -/
def progress (scroll total_lines : Nat) : Int :=
  let den := max (total_lines - 1) 1
  let m1 := fl64Mant scroll den
  let e1 := fl64Exp scroll den
  let n2 := scaleNum (100 * m1) e1
  let d2 := scaleDen e1
  min 100 (floorScaled (fl64Mant n2 d2) (fl64Exp n2 d2) : ℤ)

/-- What claim C4 states for the same expression, with `round` in place of the
code's truncating `int`.  (Python `round` rounds halves to even while Mathlib
`round` rounds halves up; the inputs compared below are not half-integers, so
the two agree there.) -/
def progressRounded (scroll total_lines : Nat) : Int :=
  min 100 (round ((scroll : ℚ) / max ((total_lines : ℚ) - 1) 1 * 100))

/-- Constant `bm_tolerance = 2` from `main.py`. -/
def bm_tolerance : Nat := 2

structure Bookmark where
  scroll : Int
  preview : String
deriving DecidableEq

/-- The bookmark-list update inside `ReaderApp.action_bookmark`: the first
existing bookmark within `bm_tolerance` lines of the current scroll has its
`scroll` and `preview` overwritten in place; otherwise a new bookmark is
appended. -/
def addBookmark (bookmarks : List Bookmark) (cur : Int) (preview : String) : List Bookmark :=
  match bookmarks with
  | [] => [{ scroll := cur, preview := preview }]
  | bm :: rest =>
    if (bm.scroll - cur).natAbs ≤ bm_tolerance then
      { scroll := cur, preview := preview } :: rest
    else bm :: addBookmark rest cur preview

/-- The session fields `action_bookmark` touches. -/
structure SessionData where
  scroll : Int
  timestamp : String
  bookmarks : List Bookmark
deriving DecidableEq

/-- Effect of `ReaderApp.action_bookmark` on the stored session data: both the
overwrite branch and the append branch also refresh `scroll` and
`timestamp`. -/
def action_bookmark (data : SessionData) (cur : Int) (preview now : String) : SessionData :=
  { scroll := cur, timestamp := now,
    bookmarks := addBookmark data.bookmarks cur preview }

/-- Specification-side helper: the index of the first bookmark within
tolerance of the current scroll. -/
def firstNear (cur : Int) : List Bookmark → Option Nat
  | [] => none
  | bm :: rest =>
    if (bm.scroll - cur).natAbs ≤ bm_tolerance then some 0
    else (firstNear cur rest).map (· + 1)

/-- Python `str.startswith`-style prefix test, structural. -/
def startsList : List Char → List Char → Bool
  | [], _ => true
  | _ :: _, [] => false
  | p :: ps, c :: cs => p == c && startsList ps cs

/-- Python `str.endswith` via reversal. -/
def endsList (pat l : List Char) : Bool := startsList pat.reverse l.reverse

/-- Index of the first occurrence of `pat` in `l` (Python `str.find`). -/
def findSub (pat : List Char) : List Char → Option Nat
  | [] => if pat.isEmpty then some 0 else none
  | c :: cs => if startsList pat (c :: cs) then some 0 else (findSub pat cs).map (· + 1)

/-- Python `str.split(sep)` for a nonempty separator: cut at each occurrence,
left to right.  Every step consumes at least one character, so fuel equal to
the length of the text suffices. -/
def pySplitOnFuel : Nat → List Char → List Char → List (List Char)
  | 0, _, l => [l]
  | fuel + 1, pat, l =>
    match findSub pat l with
    | none => [l]
    | some i => l.take i :: pySplitOnFuel fuel pat (l.drop (i + pat.length))

def pySplitOn (pat l : List Char) : List (List Char) := pySplitOnFuel l.length pat l

/-- Python `str.strip()` over the modelled whitespace set. -/
def pyStrip (l : List Char) : List Char :=
  ((l.dropWhile pyWsChar).reverse.dropWhile pyWsChar).reverse

def digitsToNat (l : List Char) : Nat := l.foldl (fun acc c => acc * 10 + (c.toNat - 48)) 0

/-- Validity of the tail of a Python integer literal: an underscore must be
followed by a digit, every other character must be a digit (so no leading,
trailing or doubled underscores). -/
def validIntTail : List Char → Bool
  | [] => true
  | c :: rest =>
    if c = '_' then
      (match rest with | d :: _ => d.isDigit | [] => false) && validIntTail rest
    else c.isDigit && validIntTail rest

/-- Python `int(str)` (ASCII fragment): strip whitespace, an optional sign,
then a nonempty digit string with single underscores between digits;
`ValueError` is `none`. -/
def pyParseInt (s : String) : Option Int :=
  match pyStrip s.data with
  | [] => none
  | c :: rest =>
    let digits := if c = '-' || c = '+' then rest else c :: rest
    let sign : Int := if c = '-' then -1 else 1
    match digits with
    | [] => none
    | d :: ds =>
      if d.isDigit && validIntTail ds then
        some (sign * digitsToNat (digits.filter (· != '_')))
      else none

/-- The per-line body of `extract_pdf_pages`: guard
`line.startswith("--- Page ") and line.endswith(" ---")`, then
`int(line.split("Page ")[1].split(" ---")[0])` with `ValueError` giving
`none` (the entry is silently skipped). -/
def sentinelPageNum (line : String) : Option Int :=
  if startsList "--- Page ".data line.data && endsList " ---".data line.data then
    match pySplitOn "Page ".data line.data with
    | _ :: seg :: _ =>
      match pySplitOn " ---".data seg with
      | s0 :: _ => pyParseInt (String.mk s0)
      | [] => none
    | _ => none
  else none

def extractPdfPagesAux (i : Nat) : List String → List (Int × Nat)
  | [] => []
  | line :: rest =>
    match sentinelPageNum line with
    | some n => (n, i) :: extractPdfPagesAux (i + 1) rest
    | none => extractPdfPagesAux (i + 1) rest

/-- The function `extract_pdf_pages(lines)`: the `(page, scroll)` pairs in line order. -/
def extract_pdf_pages (lines : List String) : List (Int × Nat) := extractPdfPagesAux 0 lines

/-- Specification-side exact sentinel `"--- Page <digits> ---"`: the prefix,
the suffix, and a nonempty all-digit middle. -/
def isExactSentinel (line : String) : Bool :=
  decide (13 < line.data.length) && startsList "--- Page ".data line.data &&
    endsList " ---".data line.data &&
    ((line.data.drop 9).take (line.data.length - 13)).all Char.isDigit

/-- Page number carried by an exact sentinel. -/
def exactSentinelVal (line : String) : Int :=
  digitsToNat ((line.data.drop 9).take (line.data.length - 13))

/-- Python `len(stripped) - len(stripped.lstrip("#"))`: the number of leading `#`. -/
def hashCount (l : List Char) : Nat := l.length - (l.dropWhile (· == '#')).length

/-- The branch of the `parse_toc` loop body on the already-left-stripped
line: require `stripped.startswith("#")`, compute the level and the trimmed
title, and keep the entry only when the title is nonempty. -/
def tocEntryOf (stripped : List Char) : Option (Nat × String) :=
  if startsList "#".data stripped then
    if (pyStrip (stripped.drop (hashCount stripped))).isEmpty then none
    else some (hashCount stripped, String.mk (pyStrip (stripped.drop (hashCount stripped))))
  else none

/-- The per-line body of `parse_toc`: `stripped = line.lstrip()` followed by
the heading test. -/
def tocEntry (line : String) : Option (Nat × String) :=
  tocEntryOf (line.data.dropWhile pyWsChar)

def parseTocAux (i : Nat) : List String → List (Nat × Nat × String)
  | [] => []
  | line :: rest =>
    match tocEntry line with
    | some (lvl, t) => (i, lvl, t) :: parseTocAux (i + 1) rest
    | none => parseTocAux (i + 1) rest

/-- The function `parse_toc(lines)`. -/
def parse_toc (lines : List String) : List (Nat × Nat × String) := parseTocAux 0 lines

/-- Specification-side TOC condition of claim C7: after left-trimming
whitespace the line is one or more `#` followed by a remainder that does not
start with `#`, whose trimmed text is the nonempty title. -/
def tocSpec (line : String) (lvl : Nat) (title : String) : Prop :=
  ∃ pre mid : List Char,
    line.data = pre ++ List.replicate lvl '#' ++ mid ∧
    (∀ c ∈ pre, pyWsChar c = true) ∧ 1 ≤ lvl ∧
    (∀ c ∈ mid.take 1, c ≠ '#') ∧
    title = String.mk (pyStrip mid) ∧ pyStrip mid ≠ []

/-- JSON values that occur in the session store. -/
inductive JVal where
  | int (n : Int)
  | str (s : String)
  | arr (bms : List Bookmark)
deriving DecidableEq

/-- A per-document entry: a JSON object in insertion order. -/
abbrev Entry := List (String × JVal)

/-- The whole state file: one JSON object keyed by document path. -/
abbrev Store := List (String × Entry)

/-- Python dict assignment `d[k] = v`: overwrite the first binding in place,
or append a new binding. -/
def setField (e : Entry) (k : String) (v : JVal) : Entry :=
  match e with
  | [] => [(k, v)]
  | (k', v') :: rest => if k' = k then (k, v) :: rest else (k', v') :: setField rest k v

def getField (e : Entry) (k : String) : Option JVal :=
  match e with
  | [] => none
  | (k', v') :: rest => if k' = k then some v' else getField rest k

def setKey (s : Store) (k : String) (e : Entry) : Store :=
  match s with
  | [] => [(k, e)]
  | (k', e') :: rest => if k' = k then (k, e) :: rest else (k', e') :: setKey rest k e

def getKey (s : Store) (k : String) : Option Entry :=
  match s with
  | [] => none
  | (k', e') :: rest => if k' = k then some e' else getKey rest k

/-- The argument of `save_state`: a plain integer scroll value or a full
state dictionary. -/
inductive SaveData where
  | int (n : Int)
  | dict (e : Entry)

/-- The function `save_state(file_path, data)`: for a plain integer, fetch the existing
entry (empty if absent), set its `scroll`, stamp its `timestamp`, and write
it back; for a dict, overwrite the path's entry verbatim. -/
def save_state (store : Store) (file_path : String) (data : SaveData) (now : String) : Store :=
  match data with
  | .int n =>
    setKey store file_path
      (setField (setField ((getKey store file_path).getD []) "scroll" (.int n))
        "timestamp" (.str now))
  | .dict e => setKey store file_path e

/-- The function `save_theme(theme_name)`: ensure a `"_theme"` entry exists and set its
`"theme"` field. -/
def save_theme (store : Store) (theme_name : String) : Store :=
  setKey store "_theme" (setField ((getKey store "_theme").getD []) "theme" (.str theme_name))

/-- A library listing item; `_rewrite_library` only reads its `path`. -/
structure LibraryEntry where
  path : String
deriving DecidableEq

/-- Method `ReaderApp._rewrite_library(library)`: drop every store key that is
neither a library path nor the literal `"_global"`, keeping the rest
untouched. -/
def rewrite_library (store : Store) (library : List LibraryEntry) : Store :=
  store.filter (fun kv => (library.map LibraryEntry.path).contains kv.1 || kv.1 == "_global")

/-! ## Theorems -/

theorem runOps_scroll_bounds (lines : List String) (ops : List ScrollOp) :
    ∀ s : Int, lines ≠ [] → 0 ≤ s → s ≤ (lines.length : Int) - 1 →
      (∀ op ∈ ops, 0 ≤ op.amount) →
      0 ≤ (Reader.runOps ⟨lines, s⟩ ops).scroll ∧
        (Reader.runOps ⟨lines, s⟩ ops).scroll ≤ (lines.length : Int) - 1 := by
  induction ops with
  | nil => intro s hne h0 h1 _; exact ⟨h0, h1⟩
  | cons op ops ih =>
    intro s hne h0 h1 hops
    have hlen : (1 : Int) ≤ (lines.length : Int) := by
      exact_mod_cast Nat.one_le_iff_ne_zero.mpr (fun h => hne (List.length_eq_zero.mp h))
    have hrest : ∀ op ∈ ops, 0 ≤ op.amount :=
      fun op h => hops op (List.mem_cons_of_mem _ h)
    cases op with
    | down n =>
      have hn : 0 ≤ n := hops (.down n) (List.mem_cons_self _ _)
      have hstep : Reader.runOps ⟨lines, s⟩ (ScrollOp.down n :: ops) =
          Reader.runOps ⟨lines, min (s + n) ((lines.length : Int) - 1)⟩ ops := rfl
      rw [hstep]
      exact ih _ hne (by omega) (by omega) hrest
    | up n =>
      have hn : 0 ≤ n := hops (.up n) (List.mem_cons_self _ _)
      have hstep : Reader.runOps ⟨lines, s⟩ (ScrollOp.up n :: ops) =
          Reader.runOps ⟨lines, max (s - n) 0⟩ ops := rfl
      rw [hstep]
      exact ih _ hne (by omega) (by omega) hrest

/-- Claim C3: starting from any in-range scroll of a non-empty line list, any
sequence of `scroll_down(n)` / `scroll_up(n)` requests with `n ≥ 0` keeps the
scroll inside `[0, len(lines)-1]`, and a `scroll_up` by at least the current
scroll returns it to 0. -/
theorem c3_cursor_clamping (lines : List String) (s : Int) (ops : List ScrollOp)
    (hne : lines ≠ []) (h0 : 0 ≤ s) (h1 : s ≤ (lines.length : Int) - 1)
    (hops : ∀ op ∈ ops, 0 ≤ op.amount) :
    (0 ≤ (Reader.runOps ⟨lines, s⟩ ops).scroll ∧
      (Reader.runOps ⟨lines, s⟩ ops).scroll ≤ (lines.length : Int) - 1) ∧
    ∀ n : Int, (Reader.runOps ⟨lines, s⟩ ops).scroll ≤ n →
      ((Reader.runOps ⟨lines, s⟩ ops).scroll_up n).scroll = 0 := by
  refine ⟨runOps_scroll_bounds lines ops s hne h0 h1 hops, fun n hn => ?_⟩
  simp only [Reader.scroll_up]
  omega

/-- Witness for C3 at a concrete reader and request sequence. -/
theorem c3_cursor_clamping_witness :
    (0 ≤ (Reader.runOps ⟨["a", "b", "c"], 1⟩ [ScrollOp.down 5, ScrollOp.up 2]).scroll ∧
      (Reader.runOps ⟨["a", "b", "c"], 1⟩ [ScrollOp.down 5, ScrollOp.up 2]).scroll ≤
        ((["a", "b", "c"] : List String).length : Int) - 1) ∧
    ((Reader.runOps ⟨["a", "b", "c"], 1⟩ [ScrollOp.down 5, ScrollOp.up 2]).scroll_up 9).scroll = 0 :=
  ⟨(c3_cursor_clamping ["a", "b", "c"] 1 [ScrollOp.down 5, ScrollOp.up 2]
      (by decide) (by decide) (by decide) (by decide)).1,
    (c3_cursor_clamping ["a", "b", "c"] 1 [ScrollOp.down 5, ScrollOp.up 2]
      (by decide) (by decide) (by decide) (by decide)).2 9 (by decide)⟩

/-- Claim C9: on an empty line list, `scroll_down(n)` from any nonnegative
scroll with `n ≥ 0` sets the scroll to `len(lines) - 1 = -1`; the operation is
total (it never raises). -/
theorem c9_scroll_down_empty (s n : Int) (h0 : 0 ≤ s) (hn : 0 ≤ n) :
    (Reader.scroll_down ⟨([] : List String), s⟩ n).scroll = -1 := by
  simp only [Reader.scroll_down, List.length_nil]
  omega

/-- Witness for C9 at `scroll = 5`, `n = 3`. -/
theorem c9_scroll_down_empty_witness :
    (0 : Int) ≤ 5 ∧ (0 : Int) ≤ 3 ∧
      (Reader.scroll_down ⟨([] : List String), 5⟩ 3).scroll = -1 :=
  ⟨by decide, by decide, c9_scroll_down_empty 5 3 (by decide) (by decide)⟩

theorem reflow_eq_flatten (paras : List String) (width : Nat) :
    reflow paras width = (paras.map (fun p => wrap_text p width ++ [""])).flatten := by
  have h : ∀ (ps : List String) (acc : List String),
      ps.foldl (fun wlines para => wlines ++ wrap_text para width ++ [""]) acc =
        acc ++ (ps.map (fun p => wrap_text p width ++ [""])).flatten := by
    intro ps
    induction ps with
    | nil => intro acc; simp
    | cons p ps ih =>
      intro acc
      rw [List.foldl_cons, List.map_cons, List.flatten_cons, ih]
      simp [List.append_assoc]
  have := h paras []
  rw [List.nil_append] at this
  exact this

theorem reflow_getLast (paras : List String) (width : Nat) (hp : paras ≠ []) :
    (reflow paras width).getLast? = some "" := by
  induction paras using List.reverseRecOn with
  | nil => cases hp rfl
  | append_singleton ps p ih =>
    rw [reflow_eq_flatten]
    rw [List.map_append, List.flatten_append]
    simp [← List.append_assoc]

/-- Claim C2: the reflow step emits, per paragraph in order, its wrapped lines
followed by exactly one empty separator line (also after the last paragraph),
and it is deterministic: equal inputs give equal line sequences. -/
theorem c2_reflow_structure (paras : List String) (width : Nat) :
    reflow paras width = (paras.map (fun p => wrap_text p width ++ [""])).flatten ∧
    reflow paras width = reflow paras width ∧
    ∀ hp : paras ≠ [], (reflow paras width).getLast? = some "" :=
  ⟨reflow_eq_flatten paras width, rfl, fun hp => reflow_getLast paras width hp⟩

/-- Witness for C2 on a one-paragraph document. -/
theorem c2_reflow_structure_witness :
    (["only para"] : List String) ≠ [] ∧ (reflow ["only para"] 70).getLast? = some "" :=
  ⟨by decide, (c2_reflow_structure ["only para"] 70).2.2 (by decide)⟩

theorem natLog2Fuel_spec (fuel : Nat) : ∀ n : Nat, 1 ≤ n → n ≤ fuel →
    2 ^ natLog2Fuel fuel n ≤ n ∧ n < 2 ^ (natLog2Fuel fuel n + 1) := by
  induction fuel with
  | zero => intro n hn hf; omega
  | succ f ih =>
    intro n hn hf
    rw [show natLog2Fuel (f + 1) n = if n ≤ 1 then 0 else natLog2Fuel f (n / 2) + 1 from rfl]
    by_cases hle : n ≤ 1
    · rw [if_pos hle]
      have hn1 : n = 1 := by omega
      subst hn1
      norm_num
    · rw [if_neg hle]
      obtain ⟨hlo, hhi⟩ := ih (n / 2) (by omega) (by omega)
      have e1 : 2 ^ (natLog2Fuel f (n / 2) + 1) = 2 ^ natLog2Fuel f (n / 2) * 2 :=
        pow_succ 2 _
      have e2 : 2 ^ (natLog2Fuel f (n / 2) + 1 + 1) = 2 ^ natLog2Fuel f (n / 2) * 2 * 2 := by
        rw [pow_succ, pow_succ]
      rw [e1, e2]
      rw [e1] at hhi
      omega

theorem natLog2_spec (n : Nat) (h : 1 ≤ n) :
    2 ^ natLog2 n ≤ n ∧ n < 2 ^ (natLog2 n + 1) :=
  natLog2Fuel_spec n n h le_rfl

theorem two_zpow_sub (a b : Nat) : (2 : ℚ) ^ ((a : ℤ) - b) = 2 ^ a / 2 ^ b := by
  rw [zpow_sub₀ (by norm_num : (2 : ℚ) ≠ 0), zpow_natCast, zpow_natCast]

theorem floorLog2_spec (n d : Nat) (hn : 1 ≤ n) (hd : 1 ≤ d) :
    (2 : ℚ) ^ floorLog2 n d ≤ (n : ℚ) / d ∧ ((n : ℚ) / d) < 2 ^ (floorLog2 n d + 1) := by
  obtain ⟨ha1, ha2⟩ := natLog2_spec n hn
  obtain ⟨hb1, hb2⟩ := natLog2_spec d hd
  have hdq : (0 : ℚ) < (d : ℚ) := by exact_mod_cast hd
  have hnq : (1 : ℚ) ≤ (n : ℚ) := by exact_mod_cast hn
  unfold floorLog2
  by_cases hc : d * 2 ^ natLog2 n ≤ n * 2 ^ natLog2 d
  · rw [if_pos hc]
    have hcq : (d : ℚ) * 2 ^ natLog2 n ≤ (n : ℚ) * 2 ^ natLog2 d := by exact_mod_cast hc
    constructor
    · rw [two_zpow_sub, div_le_div_iff₀ (by positivity) hdq]
      linarith
    · have he : ((natLog2 n : ℤ) - natLog2 d + 1) = ((natLog2 n + 1 : ℕ) : ℤ) - natLog2 d := by
        push_cast
        ring
      rw [he, two_zpow_sub, div_lt_div_iff₀ hdq (by positivity)]
      have h1 : (n : ℚ) < 2 ^ (natLog2 n + 1) := by exact_mod_cast ha2
      have h2 : (2 : ℚ) ^ natLog2 d ≤ d := by exact_mod_cast hb1
      nlinarith [mul_lt_mul_of_pos_right h1 (by positivity : (0 : ℚ) < 2 ^ natLog2 d),
        mul_le_mul_of_nonneg_left h2 (by positivity : (0 : ℚ) ≤ 2 ^ (natLog2 n + 1))]
  · rw [if_neg hc]
    push_neg at hc
    have hcq : (n : ℚ) * 2 ^ natLog2 d < (d : ℚ) * 2 ^ natLog2 n := by exact_mod_cast hc
    constructor
    · have he : ((natLog2 n : ℤ) - natLog2 d - 1) = ((natLog2 n : ℕ) : ℤ) - ((natLog2 d + 1 : ℕ) : ℤ) := by
        push_cast
        ring
      rw [he, two_zpow_sub, div_le_div_iff₀ (by positivity) hdq]
      have h1 : (2 : ℚ) ^ natLog2 n ≤ n := by exact_mod_cast ha1
      have h2 : (d : ℚ) < 2 ^ (natLog2 d + 1) := by exact_mod_cast hb2
      nlinarith [mul_le_mul_of_nonneg_right h1 (le_of_lt hdq),
        mul_lt_mul_of_pos_left h2 (lt_of_lt_of_le one_pos hnq)]
    · have he : ((natLog2 n : ℤ) - natLog2 d - 1 + 1) = ((natLog2 n : ℕ) : ℤ) - natLog2 d := by
        ring
      rw [he, two_zpow_sub, div_lt_div_iff₀ hdq (by positivity)]
      linarith

theorem roundEvenNat_bounds (n d : Nat) (hd : 1 ≤ d) :
    (n : ℚ) / d - 1 / 2 ≤ roundEvenNat n d ∧ (roundEvenNat n d : ℚ) ≤ (n : ℚ) / d + 1 / 2 := by
  have hdq : (0 : ℚ) < (d : ℚ) := by exact_mod_cast hd
  have hsplit : (d : ℚ) * ((n / d : Nat) : ℚ) + ((n % d : Nat) : ℚ) = (n : ℚ) := by
    exact_mod_cast Nat.div_add_mod n d
  have hv : (n : ℚ) / d = ((n / d : Nat) : ℚ) + ((n % d : Nat) : ℚ) / d := by
    field_simp
    linarith
  have hm0 : (0 : ℚ) ≤ ((n % d : Nat) : ℚ) / d := by positivity
  have hm1 : ((n % d : Nat) : ℚ) / d < 1 := by
    rw [div_lt_one hdq]
    exact_mod_cast Nat.mod_lt n hd
  unfold roundEvenNat
  by_cases h1 : 2 * (n % d) < d
  · rw [if_pos h1]
    have hf : ((n % d : Nat) : ℚ) / d < 1 / 2 := by
      rw [div_lt_div_iff₀ hdq (by norm_num : (0 : ℚ) < 2)]
      have hx : n % d * 2 < 1 * d := by omega
      exact_mod_cast hx
    constructor
    · rw [hv]
      linarith
    · rw [hv]
      linarith
  · rw [if_neg h1]
    by_cases h2 : d < 2 * (n % d)
    · rw [if_pos h2]
      have hf : 1 / 2 < ((n % d : Nat) : ℚ) / d := by
        rw [div_lt_div_iff₀ (by norm_num : (0 : ℚ) < 2) hdq]
        have hx : 1 * d < n % d * 2 := by omega
        exact_mod_cast hx
      constructor
      · rw [hv]
        push_cast
        linarith
      · rw [hv]
        push_cast
        linarith
    · rw [if_neg h2]
      have heq : ((n % d : Nat) : ℚ) / d = 1 / 2 := by
        rw [div_eq_div_iff (ne_of_gt hdq) (by norm_num : (2 : ℚ) ≠ 0)]
        have hx : n % d * 2 = 1 * d := by omega
        exact_mod_cast hx
      by_cases h3 : n / d % 2 = 0
      · rw [if_pos h3]
        constructor
        · rw [hv]
          linarith
        · rw [hv]
          linarith
      · rw [if_neg h3]
        constructor
        · rw [hv]
          push_cast
          linarith
        · rw [hv]
          push_cast
          linarith

theorem fl64Mant_bounds (n d : Nat) (hd : 1 ≤ d) :
    (n : ℚ) / d / 2 ^ fl64Exp n d - 1 / 2 ≤ fl64Mant n d ∧
      (fl64Mant n d : ℚ) ≤ (n : ℚ) / d / 2 ^ fl64Exp n d + 1 / 2 := by
  unfold fl64Mant
  by_cases he : 0 ≤ fl64Exp n d
  · rw [if_pos he]
    have hd2 : 1 ≤ d * 2 ^ (fl64Exp n d).toNat :=
      Nat.one_le_iff_ne_zero.mpr (Nat.mul_ne_zero (by omega) (by positivity))
    have h2 : ((2 : ℚ) ^ (fl64Exp n d).toNat) = (2 : ℚ) ^ fl64Exp n d := by
      rw [← zpow_natCast (2 : ℚ) (fl64Exp n d).toNat, Int.toNat_of_nonneg he]
    have hx : (n : ℚ) / ((d * 2 ^ (fl64Exp n d).toNat : Nat) : ℚ) =
        (n : ℚ) / d / 2 ^ fl64Exp n d := by
      calc (n : ℚ) / ((d * 2 ^ (fl64Exp n d).toNat : Nat) : ℚ)
          = (n : ℚ) / ((d : ℚ) * 2 ^ (fl64Exp n d).toNat) := by push_cast; ring_nf
        _ = (n : ℚ) / ((d : ℚ) * 2 ^ fl64Exp n d) := by rw [h2]
        _ = (n : ℚ) / d / 2 ^ fl64Exp n d := (div_div _ _ _).symm
    have hb := roundEvenNat_bounds n (d * 2 ^ (fl64Exp n d).toNat) hd2
    rw [hx] at hb
    exact hb
  · rw [if_neg he]
    push_neg at he
    have hkz : (((-fl64Exp n d).toNat : ℕ) : ℤ) = -fl64Exp n d :=
      Int.toNat_of_nonneg (by omega)
    have h2 : ((2 : ℚ) ^ ((-fl64Exp n d).toNat : ℕ)) = (2 : ℚ) ^ (-fl64Exp n d) := by
      rw [← zpow_natCast (2 : ℚ) ((-fl64Exp n d).toNat), hkz]
    have hx : (((n * 2 ^ (-fl64Exp n d).toNat : Nat) : ℚ)) / d =
        (n : ℚ) / d / 2 ^ fl64Exp n d := by
      calc ((n * 2 ^ (-fl64Exp n d).toNat : Nat) : ℚ) / d
          = (n : ℚ) * 2 ^ ((-fl64Exp n d).toNat : ℕ) / d := by push_cast; ring_nf
        _ = (n : ℚ) * 2 ^ (-fl64Exp n d) / d := by rw [h2]
        _ = (n : ℚ) / d / 2 ^ fl64Exp n d := by
            rw [zpow_neg]
            ring
    have hb := roundEvenNat_bounds (n * 2 ^ (-fl64Exp n d).toNat) d hd
    rw [hx] at hb
    exact hb

theorem fl64Val_err (n d : Nat) (hn : 1 ≤ n) (hd : 1 ≤ d) :
    2 ^ 53 * ((n : ℚ) / d) - (n : ℚ) / d ≤ 2 ^ 53 * fl64Val n d ∧
      2 ^ 53 * fl64Val n d ≤ 2 ^ 53 * ((n : ℚ) / d) + (n : ℚ) / d := by
  obtain ⟨hm1, hm2⟩ := fl64Mant_bounds n d hd
  obtain ⟨hl1, hl2⟩ := floorLog2_spec n d hn hd
  have hdq : (0 : ℚ) < (d : ℚ) := by exact_mod_cast hd
  have hepos : (0 : ℚ) < 2 ^ fl64Exp n d := by positivity
  have hene : (2 : ℚ) ^ fl64Exp n d ≠ 0 := ne_of_gt hepos
  have hb1 : (n : ℚ) / d - 2 ^ fl64Exp n d / 2 ≤ fl64Val n d := by
    have h := mul_le_mul_of_nonneg_right hm1 (le_of_lt hepos)
    unfold fl64Val
    calc (n : ℚ) / d - 2 ^ fl64Exp n d / 2
        = ((n : ℚ) / d / 2 ^ fl64Exp n d - 1 / 2) * 2 ^ fl64Exp n d := by
          field_simp
          ring
      _ ≤ (fl64Mant n d : ℚ) * 2 ^ fl64Exp n d := h
  have hb2 : fl64Val n d ≤ (n : ℚ) / d + 2 ^ fl64Exp n d / 2 := by
    have h := mul_le_mul_of_nonneg_right hm2 (le_of_lt hepos)
    unfold fl64Val
    calc (fl64Mant n d : ℚ) * 2 ^ fl64Exp n d
        ≤ ((n : ℚ) / d / 2 ^ fl64Exp n d + 1 / 2) * 2 ^ fl64Exp n d := h
      _ = (n : ℚ) / d + 2 ^ fl64Exp n d / 2 := by
          field_simp
          ring
  have hKe : (2 : ℚ) ^ (53 : ℕ) * (2 ^ fl64Exp n d / 2) = 2 ^ floorLog2 n d := by
    rw [div_eq_mul_inv, ← zpow_neg_one (2 : ℚ), ← zpow_natCast (2 : ℚ) 53,
      ← zpow_add₀ (by norm_num : (2 : ℚ) ≠ 0), ← zpow_add₀ (by norm_num : (2 : ℚ) ≠ 0)]
    congr 1
    simp only [fl64Exp]
    push_cast
    ring
  have hK : (2 : ℚ) ^ (53 : ℕ) = 9007199254740992 := by norm_num
  rw [hK] at hKe ⊢
  constructor
  · linarith [hKe, hl1, hb1]
  · linarith [hKe, hl1, hb2]

theorem fl64Mant_pos (n d : Nat) (hn : 1 ≤ n) (hd : 1 ≤ d) : 1 ≤ fl64Mant n d := by
  by_contra hcon
  push_neg at hcon
  have h0 : fl64Mant n d = 0 := by omega
  obtain ⟨hm1, _⟩ := fl64Mant_bounds n d hd
  obtain ⟨hl1, _⟩ := floorLog2_spec n d hn hd
  rw [h0] at hm1
  have hepos : (0 : ℚ) < 2 ^ fl64Exp n d := by positivity
  have hdivle : (2 : ℚ) ^ floorLog2 n d / 2 ^ fl64Exp n d ≤ (n : ℚ) / d / 2 ^ fl64Exp n d := by
    gcongr
  have h52 : (2 : ℚ) ^ floorLog2 n d / 2 ^ fl64Exp n d = 2 ^ (52 : ℕ) := by
    rw [← zpow_natCast (2 : ℚ) 52, ← zpow_sub₀ (by norm_num : (2 : ℚ) ≠ 0)]
    congr 1
    simp only [fl64Exp]
    push_cast
    ring
  rw [h52] at hdivle
  have hnum : (2 : ℚ) ^ (52 : ℕ) = 4503599627370496 := by norm_num
  rw [hnum] at hdivle
  simp only [Nat.cast_zero] at hm1
  linarith

theorem scaleVal (m : Nat) (e : ℤ) :
    ((scaleNum m e : Nat) : ℚ) / ((scaleDen e : Nat) : ℚ) = (m : ℚ) * 2 ^ e := by
  unfold scaleNum scaleDen
  by_cases he : 0 ≤ e
  · rw [if_pos he, if_pos he]
    push_cast
    rw [div_one, ← zpow_natCast (2 : ℚ) e.toNat, Int.toNat_of_nonneg he]
  · rw [if_neg he, if_neg he]
    push_cast
    have h2 : ((2 : ℚ) ^ ((-e).toNat : ℕ)) = (2 : ℚ) ^ (-e) := by
      rw [← zpow_natCast (2 : ℚ) ((-e).toNat), Int.toNat_of_nonneg (by omega)]
    rw [h2, zpow_neg, div_eq_mul_inv, inv_inv]

theorem floorScaled_eq (m : Nat) (e : ℤ) :
    (floorScaled m e : ℤ) = ⌊(m : ℚ) * 2 ^ e⌋ := by
  rw [← scaleVal m e]
  unfold floorScaled
  rw [Rat.floor_natCast_div_natCast]
  exact (Int.natCast_div _ _).symm

theorem roundEvenNat_zero (d : Nat) : roundEvenNat 0 d = 0 := by
  unfold roundEvenNat
  rcases Nat.eq_zero_or_pos d with h | h
  · subst h
    norm_num
  · simp [Nat.zero_mod, Nat.zero_div, h]

theorem fl64Mant_zero (d : Nat) : fl64Mant 0 d = 0 := by
  unfold fl64Mant
  split
  · exact roundEvenNat_zero _
  · rw [Nat.zero_mul]
    exact roundEvenNat_zero _

theorem scaleNum_zero (e : ℤ) : scaleNum 0 e = 0 := by
  unfold scaleNum
  split
  · exact Nat.zero_mul _
  · rfl

theorem floorScaled_zero (e : ℤ) : floorScaled 0 e = 0 := by
  unfold floorScaled
  rw [scaleNum_zero, Nat.zero_div]

theorem progress_zero (t : Nat) : progress 0 t = 0 := by
  simp only [progress]
  rw [fl64Mant_zero, Nat.mul_zero, scaleNum_zero, fl64Mant_zero, floorScaled_zero]
  simp

theorem scaleNum_pos (m : Nat) (e : ℤ) (hm : 1 ≤ m) : 1 ≤ scaleNum m e := by
  unfold scaleNum
  split
  · exact le_trans hm (Nat.le_mul_of_pos_right m (by positivity))
  · exact hm

theorem scaleDen_pos (e : ℤ) : 1 ≤ scaleDen e := by
  unfold scaleDen
  split
  · exact le_rfl
  · exact Nat.one_le_two_pow

theorem progress_nonneg_le (scroll total_lines : Nat) :
    0 ≤ progress scroll total_lines ∧ progress scroll total_lines ≤ 100 :=
  ⟨le_min (by norm_num) (Int.natCast_nonneg _), min_le_left _ _⟩

theorem progress_sandwich (scroll total_lines : Nat)
    (h1 : scroll ≤ max (total_lines - 1) 1) :
    ((min 100 (scroll * 100 / max (total_lines - 1) 1) : Nat) : ℤ) - 1
        ≤ progress scroll total_lines ∧
      progress scroll total_lines
        ≤ ((min 100 (scroll * 100 / max (total_lines - 1) 1) : Nat) : ℤ) + 1 := by
  rcases Nat.eq_zero_or_pos scroll with hs | hs
  · subst hs
    rw [progress_zero]
    simp
  · have hp : progress scroll total_lines =
        min 100 (floorScaled
          (fl64Mant (scaleNum (100 * fl64Mant scroll (max (total_lines - 1) 1))
              (fl64Exp scroll (max (total_lines - 1) 1)))
            (scaleDen (fl64Exp scroll (max (total_lines - 1) 1))))
          (fl64Exp (scaleNum (100 * fl64Mant scroll (max (total_lines - 1) 1))
              (fl64Exp scroll (max (total_lines - 1) 1)))
            (scaleDen (fl64Exp scroll (max (total_lines - 1) 1)))) : ℤ) := rfl
    set den := max (total_lines - 1) 1 with hdendef
    have hden1 : 1 ≤ den := le_max_right _ _
    set m1 := fl64Mant scroll den with hm1def
    set e1 := fl64Exp scroll den with he1def
    set n2 := scaleNum (100 * m1) e1 with hn2def
    set d2 := scaleDen e1 with hd2def
    have hm1pos : 1 ≤ m1 := fl64Mant_pos scroll den hs hden1
    have hn2pos : 1 ≤ n2 := scaleNum_pos _ _ (by omega)
    have hd2pos : 1 ≤ d2 := scaleDen_pos _
    have hval1 : fl64Val scroll den = (m1 : ℚ) * 2 ^ e1 := rfl
    have hval2 : ((n2 : Nat) : ℚ) / ((d2 : Nat) : ℚ) = 100 * fl64Val scroll den := by
      rw [hn2def, hd2def, scaleVal]
      rw [hval1]
      push_cast
      ring
    have herr1 := fl64Val_err scroll den hs hden1
    have herr2 := fl64Val_err n2 d2 hn2pos hd2pos
    rw [hval2] at herr2
    have hK : (2 : ℚ) ^ (53 : ℕ) = 9007199254740992 := by norm_num
    rw [hK] at herr1 herr2
    have hdenq : (0 : ℚ) < (den : ℚ) := by exact_mod_cast hden1
    set q : ℚ := (scroll : ℚ) / den with hqdef
    set r : ℚ := fl64Val scroll den with hrdef
    set P : ℚ := fl64Val n2 d2 with hPdef
    have hq1 : q ≤ 1 := by
      rw [hqdef, div_le_one hdenq]
      exact_mod_cast h1
    have hq0 : 0 < q := by
      rw [hqdef]
      exact div_pos (by exact_mod_cast hs) hdenq
    have hsand1 : 100 * q - 1 < P := by
      linarith [herr1.1, herr1.2, herr2.1, herr2.2]
    have hsand2 : P < 100 * q + 1 := by
      linarith [herr1.1, herr1.2, herr2.1, herr2.2]
    have hfP : (floorScaled (fl64Mant n2 d2) (fl64Exp n2 d2) : ℤ) = ⌊P⌋ := by
      rw [floorScaled_eq]
      rfl
    have hfloorq : ⌊(100 : ℚ) * q⌋ = ((scroll * 100 / den : Nat) : ℤ) := by
      have hmq : (100 : ℚ) * q = ((scroll * 100 : Nat) : ℚ) / ((den : Nat) : ℚ) := by
        rw [hqdef]
        push_cast
        ring
      rw [hmq, Rat.floor_natCast_div_natCast]
      exact (Int.natCast_div _ _).symm
    have hlow : ⌊(100 : ℚ) * q⌋ - 1 ≤ ⌊P⌋ := by
      have hle : ((⌊(100 : ℚ) * q⌋ - 1 : ℤ) : ℚ) ≤ P := by
        push_cast
        have := Int.floor_le ((100 : ℚ) * q)
        linarith
      exact Int.le_floor.mpr hle
    have hhigh : ⌊P⌋ ≤ ⌊(100 : ℚ) * q⌋ + 1 := by
      have hlt : P < ((⌊(100 : ℚ) * q⌋ + 2 : ℤ) : ℚ) := by
        push_cast
        have := Int.lt_floor_add_one ((100 : ℚ) * q)
        linarith
      have h2 := Int.floor_lt.mpr hlt
      omega
    rw [hp, hfP]
    have hcast : ((min 100 (scroll * 100 / den) : Nat) : ℤ) =
        min (100 : ℤ) ((scroll * 100 / den : Nat) : ℤ) := Nat.cast_min _ _
    rw [hcast, ← hfloorq]
    omega

/-- Claim C4 as stated is false: the code truncates with `int()`, it does not
round.  At `total_lines = 4`, `scroll = 2` the binary64 computation of
`(2 / 3) * 100` yields a double just below `200 / 3`; the code computes 66
while the claimed `round` formula gives 67. -/
theorem c4_progress_counterexample :
    progress 2 4 = 66 ∧ progressRounded 2 4 = 67 ∧ progress 2 4 ≠ progressRounded 2 4 := by
  have hm : max ((4 : ℚ) - 1) 1 = 3 := by norm_num
  have hx : (2 : ℚ) / 3 * 100 = 200 / 3 := by norm_num
  have hround : round ((200 : ℚ) / 3) = 67 := by
    rw [round_eq, Int.floor_eq_iff]
    norm_num
  have e2 : progressRounded 2 4 = 67 := by
    unfold progressRounded
    push_cast
    rw [hm, hx, hround]
    decide
  have e1 : progress 2 4 = 66 := by decide
  exact ⟨e1, e2, by rw [e1, e2]; decide⟩

/-- Claim C4 corrected: the computed progress is the `int()` truncation - not
the rounding - of the binary64 evaluation of
`scroll / max(total_lines - 1, 1) * 100`, clamped to 100.  For entries whose
scroll does not exceed `max(total_lines - 1, 1)` (with `total_lines ≤ 2^53`,
which keeps every intermediate double normal and finite, so the model is
exact there) the result lies within one unit of the exact truncated
percentage `min 100 (scroll * 100 / max (total_lines - 1) 1)` and stays in
`[0, 100]` with no division by zero; the spec's examples give
`progress 50 101 = 50` and `progress 0 1 = 0`.  The one-unit slack is real:
at `scroll = 29`, `total_lines = 101` the double product is just below 29,
so the code reports 28 while the exact truncated percentage is 29. -/
theorem c4_progress_amended (scroll total_lines : Nat)
    (h1 : scroll ≤ max (total_lines - 1) 1) (_h2 : total_lines ≤ 2 ^ 53) :
    (((min 100 (scroll * 100 / max (total_lines - 1) 1) : Nat) : ℤ) - 1
        ≤ progress scroll total_lines ∧
      progress scroll total_lines
        ≤ ((min 100 (scroll * 100 / max (total_lines - 1) 1) : Nat) : ℤ) + 1) ∧
    0 ≤ progress scroll total_lines ∧ progress scroll total_lines ≤ 100 ∧
    progress 50 101 = 50 ∧ progress 0 1 = 0 ∧ progress 29 101 = 28 ∧
    29 * 100 / (101 - 1) = 29 :=
  ⟨progress_sandwich scroll total_lines h1, (progress_nonneg_le scroll total_lines).1,
    (progress_nonneg_le scroll total_lines).2, by decide, by decide, by decide, by decide⟩

/-- Witness for C4 at `scroll = 29`, `total_lines = 101`, where the binary64
result differs from the exact percentage by one unit. -/
theorem c4_progress_amended_witness :
    29 ≤ max (101 - 1) 1 ∧ 101 ≤ 2 ^ 53 ∧
      (((min 100 (29 * 100 / max (101 - 1) 1) : Nat) : ℤ) - 1 ≤ progress 29 101 ∧
        progress 29 101 ≤ ((min 100 (29 * 100 / max (101 - 1) 1) : Nat) : ℤ) + 1) ∧
      0 ≤ progress 29 101 ∧ progress 29 101 ≤ 100 ∧
      progress 50 101 = 50 ∧ progress 0 1 = 0 ∧ progress 29 101 = 28 ∧
      29 * 100 / (101 - 1) = 29 :=
  ⟨by decide, by decide, c4_progress_amended 29 101 (by decide) (by decide)⟩

theorem addBookmark_eq (bms : List Bookmark) (cur : Int) (pv : String) :
    addBookmark bms cur pv =
      match firstNear cur bms with
      | some i => bms.set i { scroll := cur, preview := pv }
      | none => bms ++ [{ scroll := cur, preview := pv }] := by
  induction bms with
  | nil => rfl
  | cons bm rest ih =>
    by_cases h : (bm.scroll - cur).natAbs ≤ bm_tolerance
    · simp [addBookmark, firstNear, h]
    · simp only [addBookmark, firstNear, h, if_neg, ih]
      cases firstNear cur rest <;> simp

/-- Claim C5: `action_bookmark` overwrites the first in-tolerance bookmark in
place (at its original position) or appends a new one, and in both cases
refreshes the state's scroll and timestamp; adding at scroll 10 then 11 leaves
one bookmark positioned at 11, and adding at 20 then yields two. -/
theorem c5_bookmark_merge (data : SessionData) (cur : Int) (pv now pv1 pv2 pv3 : String) :
    ((action_bookmark data cur pv now).scroll = cur ∧
      (action_bookmark data cur pv now).timestamp = now) ∧
    ((action_bookmark data cur pv now).bookmarks =
      match firstNear cur data.bookmarks with
      | some i => data.bookmarks.set i { scroll := cur, preview := pv }
      | none => data.bookmarks ++ [{ scroll := cur, preview := pv }]) ∧
    (addBookmark (addBookmark [] 10 pv1) 11 pv2 = [{ scroll := 11, preview := pv2 }] ∧
      addBookmark (addBookmark (addBookmark [] 10 pv1) 11 pv2) 20 pv3 =
        [{ scroll := 11, preview := pv2 }, { scroll := 20, preview := pv3 }]) := by
  refine ⟨⟨rfl, rfl⟩, addBookmark_eq data.bookmarks cur pv, ?_, ?_⟩
  · norm_num [addBookmark, bm_tolerance]
  · norm_num [addBookmark, bm_tolerance]

theorem getKey_setKey_self (s : Store) (k : String) (e : Entry) :
    getKey (setKey s k e) k = some e := by
  induction s with
  | nil => simp [setKey, getKey]
  | cons kv rest ih =>
    obtain ⟨k', e'⟩ := kv
    by_cases h : k' = k
    · simp [setKey, getKey, h]
    · simp [setKey, getKey, h, ih]

theorem getKey_setKey_other (s : Store) (k q : String) (e : Entry) (h : q ≠ k) :
    getKey (setKey s k e) q = getKey s q := by
  have hkq : k ≠ q := fun hh => h hh.symm
  induction s with
  | nil => simp [setKey, getKey, hkq]
  | cons kv rest ih =>
    obtain ⟨k', e'⟩ := kv
    by_cases hk : k' = k
    · subst hk
      simp [setKey, getKey, hkq]
    · simp [setKey, getKey, hk, ih]

theorem getField_setField_self (en : Entry) (k : String) (v : JVal) :
    getField (setField en k v) k = some v := by
  induction en with
  | nil => simp [setField, getField]
  | cons kv rest ih =>
    obtain ⟨k', v'⟩ := kv
    by_cases h : k' = k
    · simp [setField, getField, h]
    · simp [setField, getField, h, ih]

theorem getField_setField_other (en : Entry) (k q : String) (v : JVal) (h : q ≠ k) :
    getField (setField en k v) q = getField en q := by
  have hkq : k ≠ q := fun hh => h hh.symm
  induction en with
  | nil => simp [setField, getField, hkq]
  | cons kv rest ih =>
    obtain ⟨k', v'⟩ := kv
    by_cases hk : k' = k
    · subst hk
      simp [setField, getField, hkq]
    · simp [setField, getField, hk, ih]

/-- Claim C8: `save_state` with a plain integer keeps every other path's entry
unchanged and, within the path's entry, keeps every field other than `scroll`
and `timestamp` unchanged while setting `scroll` and stamping `timestamp`;
with an explicit dict the path's entry is overwritten verbatim (including the
caller's timestamp). -/
theorem c8_save_state_frame (store : Store) (p : String) (n : Int) (now : String) (e : Entry) :
    (∀ q, q ≠ p → getKey (save_state store p (.int n) now) q = getKey store q) ∧
    (∀ q, q ≠ p → getKey (save_state store p (.dict e) now) q = getKey store q) ∧
    getField ((getKey (save_state store p (.int n) now) p).getD []) "scroll" = some (.int n) ∧
    getField ((getKey (save_state store p (.int n) now) p).getD []) "timestamp" =
      some (.str now) ∧
    (∀ k, k ≠ "scroll" → k ≠ "timestamp" →
      getField ((getKey (save_state store p (.int n) now) p).getD []) k =
        getField ((getKey store p).getD []) k) ∧
    getKey (save_state store p (.dict e) now) p = some e := by
  refine ⟨fun q hq => getKey_setKey_other store p q _ hq,
    fun q hq => getKey_setKey_other store p q e hq, ?_, ?_, ?_, getKey_setKey_self store p e⟩
  · rw [show save_state store p (.int n) now = setKey store p
        (setField (setField ((getKey store p).getD []) "scroll" (.int n))
          "timestamp" (.str now)) from rfl]
    rw [getKey_setKey_self]
    rw [Option.getD_some]
    rw [getField_setField_other _ _ _ _ (by decide)]
    exact getField_setField_self _ _ _
  · rw [show save_state store p (.int n) now = setKey store p
        (setField (setField ((getKey store p).getD []) "scroll" (.int n))
          "timestamp" (.str now)) from rfl]
    rw [getKey_setKey_self, Option.getD_some]
    exact getField_setField_self _ _ _
  · intro k hks hkt
    rw [show save_state store p (.int n) now = setKey store p
        (setField (setField ((getKey store p).getD []) "scroll" (.int n))
          "timestamp" (.str now)) from rfl]
    rw [getKey_setKey_self, Option.getD_some]
    rw [getField_setField_other _ _ _ _ hkt, getField_setField_other _ _ _ _ hks]

/-- Witness for C8 on a concrete store. -/
theorem c8_save_state_frame_witness :
    ("b.txt" : String) ≠ "a.txt" ∧ ("bookmarks" : String) ≠ "scroll" ∧
    getKey (save_state [("a.txt", [("scroll", .int 3), ("bookmarks", .arr [])]),
        ("b.txt", [("scroll", .int 9)])] "a.txt" (.int 7) "T1") "b.txt" =
      getKey [("a.txt", [("scroll", JVal.int 3), ("bookmarks", JVal.arr [])]),
        ("b.txt", [("scroll", JVal.int 9)])] "b.txt" ∧
    getField ((getKey (save_state [("a.txt", [("scroll", .int 3), ("bookmarks", .arr [])]),
        ("b.txt", [("scroll", .int 9)])] "a.txt" (.int 7) "T1") "a.txt").getD []) "bookmarks" =
      getField ((getKey [("a.txt", [("scroll", JVal.int 3), ("bookmarks", JVal.arr [])]),
        ("b.txt", [("scroll", JVal.int 9)])] "a.txt").getD []) "bookmarks" :=
  ⟨by decide, by decide,
    (c8_save_state_frame _ "a.txt" 7 "T1" []).1 "b.txt" (by decide),
    (c8_save_state_frame _ "a.txt" 7 "T1" []).2.2.2.2.1 "bookmarks" (by decide) (by decide)⟩

theorem getKey_filter_of_pos (P : String → Bool) (s : Store) (k : String) (h : P k = true) :
    getKey (s.filter (fun kv => P kv.1)) k = getKey s k := by
  induction s with
  | nil => rfl
  | cons kv rest ih =>
    obtain ⟨k', e'⟩ := kv
    by_cases hk : k' = k
    · subst hk
      rw [List.filter_cons_of_pos (by simpa using h)]
      simp [getKey]
    · cases hP : P k' with
      | false =>
        rw [List.filter_cons_of_neg (by simpa using hP)]
        rw [ih]
        simp [getKey, hk]
      | true =>
        rw [List.filter_cons_of_pos (by simpa using hP)]
        simp [getKey, hk, ih]

theorem getKey_filter_of_neg (P : String → Bool) (s : Store) (k : String) (h : P k = false) :
    getKey (s.filter (fun kv => P kv.1)) k = none := by
  induction s with
  | nil => rfl
  | cons kv rest ih =>
    obtain ⟨k', e'⟩ := kv
    by_cases hk : k' = k
    · subst hk
      rw [List.filter_cons_of_neg (by simpa using h)]
      exact ih
    · cases hP : P k' with
      | false =>
        rw [List.filter_cons_of_neg (by simpa using hP)]
        exact ih
      | true =>
        rw [List.filter_cons_of_pos (by simpa using hP)]
        simp [getKey, hk, ih]

theorem getKey_rewrite_keep (store : Store) (library : List LibraryEntry) (k : String)
    (h : k ∈ library.map LibraryEntry.path ∨ k = "_global") :
    getKey (rewrite_library store library) k = getKey store k := by
  have hp : ((library.map LibraryEntry.path).contains k || k == "_global") = true := by
    rcases h with h | h
    · simp [List.contains, h]
    · simp [h]
  exact getKey_filter_of_pos
    (fun x => (library.map LibraryEntry.path).contains x || x == "_global") store k hp

theorem getKey_rewrite_drop (store : Store) (library : List LibraryEntry) (k : String)
    (h1 : k ∉ library.map LibraryEntry.path) (h2 : k ≠ "_global") :
    getKey (rewrite_library store library) k = none := by
  have hp : ((library.map LibraryEntry.path).contains k || k == "_global") = false := by
    simp [List.contains, h1, h2]
  exact getKey_filter_of_neg
    (fun x => (library.map LibraryEntry.path).contains x || x == "_global") store k hp

/-- Claim C10: rewriting the library after a delete keeps exactly the store
keys that are library paths or the literal `"_global"` (their entries
unchanged) and removes every other key; in particular the `"_theme"` key that
`save_theme` actually writes is removed whenever it is not a library path, so
a library delete discards the saved theme. -/
theorem c10_rewrite_library (store : Store) (library : List LibraryEntry) (name : String) :
    (∀ k, (k ∈ library.map LibraryEntry.path ∨ k = "_global") →
      getKey (rewrite_library store library) k = getKey store k) ∧
    (∀ k, k ∉ library.map LibraryEntry.path → k ≠ "_global" →
      getKey (rewrite_library store library) k = none) ∧
    ("_theme" ∉ library.map LibraryEntry.path →
      getKey (rewrite_library (save_theme store name) library) "_theme" = none) :=
  ⟨fun k h => getKey_rewrite_keep store library k h,
    fun k h1 h2 => getKey_rewrite_drop store library k h1 h2,
    fun h => getKey_rewrite_drop (save_theme store name) library "_theme" h (by decide)⟩

/-- Witness for C10: deleting down to a library containing only `a.txt`
discards a freshly saved theme and keeps `a.txt` untouched. -/
theorem c10_rewrite_library_witness :
    (("a.txt" : String) ∈ ([⟨"a.txt"⟩] : List LibraryEntry).map LibraryEntry.path ∨
      ("a.txt" : String) = "_global") ∧
    getKey (rewrite_library (save_theme [("a.txt", [("scroll", .int 3)])] "sepia")
        [⟨"a.txt"⟩]) "a.txt" =
      getKey (save_theme [("a.txt", [("scroll", JVal.int 3)])] "sepia") "a.txt" ∧
    ("_theme" : String) ∉ ([⟨"a.txt"⟩] : List LibraryEntry).map LibraryEntry.path ∧
    getKey (rewrite_library (save_theme [("a.txt", [("scroll", JVal.int 3)])] "sepia")
        [⟨"a.txt"⟩]) "_theme" = none :=
  ⟨by decide,
    (c10_rewrite_library (save_theme [("a.txt", [("scroll", JVal.int 3)])] "sepia")
      [⟨"a.txt"⟩] "sepia").1 "a.txt" (by decide),
    by decide,
    (c10_rewrite_library [("a.txt", [("scroll", JVal.int 3)])] [⟨"a.txt"⟩] "sepia").2.2
      (by decide)⟩

theorem startsList_iff (pat l : List Char) :
    startsList pat l = true ↔ ∃ t, l = pat ++ t := by
  induction pat generalizing l with
  | nil => simp [startsList]
  | cons p ps ih =>
    cases l with
    | nil =>
      simp only [startsList]
      constructor
      · intro h; cases h
      · rintro ⟨t, ht⟩; cases ht
    | cons c cs =>
      simp only [startsList, Bool.and_eq_true, beq_iff_eq]
      constructor
      · rintro ⟨rfl, h⟩
        obtain ⟨t, rfl⟩ := (ih cs).mp h
        exact ⟨t, rfl⟩
      · rintro ⟨t, ht⟩
        injection ht with h1 h2
        exact ⟨h1.symm, (ih cs).mpr ⟨t, h2⟩⟩

theorem endsList_iff (pat l : List Char) :
    endsList pat l = true ↔ ∃ s, l = s ++ pat := by
  unfold endsList
  rw [startsList_iff]
  constructor
  · rintro ⟨t, ht⟩
    refine ⟨t.reverse, ?_⟩
    have h := congrArg List.reverse ht
    simpa [List.reverse_append] using h
  · rintro ⟨s, rfl⟩
    exact ⟨s.reverse, by simp [List.reverse_append]⟩

theorem startsList_append (pat t : List Char) : startsList pat (pat ++ t) = true :=
  (startsList_iff pat (pat ++ t)).mpr ⟨t, rfl⟩

theorem hashCount_eq_takeWhile (l : List Char) :
    hashCount l = (l.takeWhile (· == '#')).length := by
  have h := congrArg List.length (List.takeWhile_append_dropWhile (· == '#') l)
  rw [List.length_append] at h
  unfold hashCount
  omega

theorem takeWhile_hash_replicate (l : List Char) :
    l.takeWhile (· == '#') = List.replicate (l.takeWhile (· == '#')).length '#' := by
  induction l with
  | nil => rfl
  | cons c cs ih =>
    by_cases hc : c = '#'
    · subst hc
      rw [List.takeWhile_cons_of_pos (by simp)]
      simp only [List.length_cons, List.replicate_succ]
      exact congrArg (List.cons '#') ih
    · rw [List.takeWhile_cons_of_neg (by simp [hc])]
      rfl

theorem dropWhile_append_all (p : Char → Bool) (pre l : List Char)
    (h : ∀ c ∈ pre, p c = true) : (pre ++ l).dropWhile p = l.dropWhile p := by
  induction pre with
  | nil => rfl
  | cons c cs ih =>
    rw [List.cons_append, List.dropWhile_cons, if_pos (h c (List.mem_cons_self c cs))]
    exact ih (fun x hx => h x (List.mem_cons_of_mem _ hx))

theorem dropWhile_head_false (p : Char → Bool) (l : List Char) :
    ∀ c cs, l.dropWhile p = c :: cs → p c = false := by
  induction l with
  | nil => intro c cs h; cases h
  | cons a as ih =>
    intro c cs h
    rw [List.dropWhile_cons] at h
    by_cases ha : p a = true
    · rw [if_pos ha] at h
      exact ih c cs h
    · rw [if_neg ha] at h
      injection h with h1 _
      rw [← h1]
      exact Bool.eq_false_iff.mpr ha

theorem takeWhile_replicate_hash (lvl : Nat) (mid : List Char)
    (h : ∀ c ∈ mid.take 1, c ≠ '#') :
    (List.replicate lvl '#' ++ mid).takeWhile (· == '#') = List.replicate lvl '#' ∧
    (List.replicate lvl '#' ++ mid).dropWhile (· == '#') = mid := by
  induction lvl with
  | zero =>
    simp only [List.replicate, List.nil_append]
    cases mid with
    | nil => exact ⟨rfl, rfl⟩
    | cons c cs =>
      have hc : ¬((c == '#') = true) := by
        simp only [beq_iff_eq]
        exact h c (by simp)
      refine ⟨List.takeWhile_cons_of_neg hc, ?_⟩
      rw [List.dropWhile_cons, if_neg hc]
  | succ n ih =>
    rw [List.replicate_succ, List.cons_append]
    have hpos : (('#' : Char) == '#') = true := by simp
    refine ⟨?_, ?_⟩
    · rw [List.takeWhile_cons, if_pos hpos]
      exact congrArg (List.cons '#') ih.1
    · rw [List.dropWhile_cons, if_pos hpos]
      exact ih.2

theorem tocEntryOf_decomp (lvl : Nat) (mid : List Char) (h1 : 1 ≤ lvl)
    (h : ∀ c ∈ mid.take 1, c ≠ '#') :
    tocEntryOf (List.replicate lvl '#' ++ mid) =
      if (pyStrip mid).isEmpty then none
      else some (lvl, String.mk (pyStrip mid)) := by
  obtain ⟨k, rfl⟩ : ∃ k, lvl = k + 1 := ⟨lvl - 1, by omega⟩
  have hs : startsList "#".data (List.replicate (k + 1) '#' ++ mid) = true := by
    rw [List.replicate_succ, List.cons_append]
    rfl
  have hcount : hashCount (List.replicate (k + 1) '#' ++ mid) = k + 1 := by
    rw [hashCount_eq_takeWhile, (takeWhile_replicate_hash (k + 1) mid h).1,
      List.length_replicate]
  have hdrop : (List.replicate (k + 1) '#' ++ mid).drop (k + 1) = mid :=
    List.drop_left' (List.length_replicate _ _)
  unfold tocEntryOf
  rw [if_pos hs, hcount, hdrop]

theorem take_one_dropWhile_false (p : Char → Bool) (l : List Char) :
    ∀ c ∈ (l.dropWhile p).take 1, p c = false := by
  intro c hc
  cases hdw : l.dropWhile p with
  | nil => rw [hdw] at hc; simp at hc
  | cons a as =>
    rw [hdw] at hc
    simp only [List.take_succ_cons, List.take_zero, List.mem_singleton] at hc
    rw [hc]
    exact dropWhile_head_false p l a as hdw

theorem tocEntryOf_eq_some (stripped : List Char) (lvl : Nat) (t : String)
    (h : tocEntryOf stripped = some (lvl, t)) :
    ∃ mid, stripped = List.replicate lvl '#' ++ mid ∧ 1 ≤ lvl ∧
      (∀ c ∈ mid.take 1, c ≠ '#') ∧ t = String.mk (pyStrip mid) ∧ pyStrip mid ≠ [] := by
  unfold tocEntryOf at h
  by_cases hs : startsList "#".data stripped = true
  · rw [if_pos hs] at h
    by_cases he : (pyStrip (stripped.drop (hashCount stripped))).isEmpty = true
    · rw [if_pos he] at h
      cases h
    · rw [if_neg he] at h
      injection h with h'
      injection h' with hlvl ht
      have hsplit : stripped.takeWhile (· == '#') ++ stripped.dropWhile (· == '#') =
          stripped := List.takeWhile_append_dropWhile _ _
      have htake : stripped.takeWhile (· == '#') =
          List.replicate (hashCount stripped) '#' := by
        rw [hashCount_eq_takeWhile]
        exact takeWhile_hash_replicate stripped
      have hmid : ∀ c ∈ (stripped.dropWhile (· == '#')).take 1, c ≠ '#' := by
        intro c hc
        have hf := take_one_dropWhile_false (· == '#') stripped c hc
        simpa using hf
      obtain ⟨t0, hstr⟩ := (startsList_iff _ _).mp hs
      have hlvl1 : 1 ≤ hashCount stripped := by
        rw [hashCount_eq_takeWhile, hstr, show "#".data = ['#'] from rfl,
          List.singleton_append, List.takeWhile_cons,
          if_pos (show (('#' : Char) == '#') = true by simp)]
        simp
      have hdropc : stripped.drop (hashCount stripped) =
          stripped.dropWhile (· == '#') := by
        have h9 : stripped = List.replicate (hashCount stripped) '#' ++
            stripped.dropWhile (· == '#') := by
          rw [← htake]
          exact hsplit.symm
        nth_rewrite 2 [h9]
        exact List.drop_left' (by rw [List.length_replicate])
      refine ⟨stripped.dropWhile (· == '#'), ?_, ?_, hmid, ?_, ?_⟩
      · rw [← hlvl, ← htake]
        exact hsplit.symm
      · omega
      · rw [← ht, hdropc]
      · rw [← hdropc]
        intro hempty
        rw [hempty] at he
        exact he rfl
  · rw [if_neg hs] at h
    cases h

theorem tocEntry_eq_some_iff (line : String) (lvl : Nat) (t : String) :
    tocEntry line = some (lvl, t) ↔ tocSpec line lvl t := by
  constructor
  · intro h
    obtain ⟨mid, hdec, h1, hmid, ht, hne⟩ :=
      tocEntryOf_eq_some (line.data.dropWhile pyWsChar) lvl t h
    refine ⟨line.data.takeWhile pyWsChar, mid, ?_,
      fun c hc => List.mem_takeWhile_imp hc, h1, hmid, ht, hne⟩
    rw [List.append_assoc, ← hdec]
    exact (List.takeWhile_append_dropWhile pyWsChar line.data).symm
  · rintro ⟨pre, mid, hdata, hpre, h1, hmid, ht, hne⟩
    obtain ⟨k, rfl⟩ : ∃ k, lvl = k + 1 := ⟨lvl - 1, by omega⟩
    unfold tocEntry
    have hstr : line.data.dropWhile pyWsChar = List.replicate (k + 1) '#' ++ mid := by
      rw [hdata, List.append_assoc, dropWhile_append_all pyWsChar pre _ hpre,
        List.replicate_succ, List.cons_append, List.dropWhile_cons, if_neg (by decide)]
    rw [hstr, tocEntryOf_decomp (k + 1) mid (by omega) hmid,
      if_neg (by simpa [List.isEmpty_iff] using hne), ← ht]

theorem parseTocAux_mem (lines : List String) :
    ∀ (start i lvl : Nat) (t : String),
      ((i, lvl, t) ∈ parseTocAux start lines ↔
        ∃ j line, i = start + j ∧ lines.get? j = some line ∧
          tocEntry line = some (lvl, t)) := by
  induction lines with
  | nil =>
    intro start i lvl t
    simp [parseTocAux]
  | cons line rest ih =>
    intro start i lvl t
    unfold parseTocAux
    cases hte : tocEntry line with
    | some e =>
      obtain ⟨l0, t0⟩ := e
      simp only [List.mem_cons]
      constructor
      · rintro (heq | hmem)
        · injection heq with h1 h2
          injection h2 with h2 h3
          exact ⟨0, line, by omega, rfl, by rw [hte, h2, h3]⟩
        · obtain ⟨j, line', hj, hget, hent⟩ := (ih (start + 1) i lvl t).mp hmem
          exact ⟨j + 1, line', by omega, hget, hent⟩
      · rintro ⟨j, line', hj, hget, hent⟩
        cases j with
        | zero =>
          left
          simp only [List.get?] at hget
          injection hget with hget
          subst hget
          rw [hte] at hent
          injection hent with hent
          injection hent with h2 h3
          subst hj
          rw [h2, h3]
        | succ j' =>
          right
          exact (ih (start + 1) i lvl t).mpr ⟨j', line', by omega, hget, hent⟩
    | none =>
      constructor
      · intro hmem
        obtain ⟨j, line', hj, hget, hent⟩ := (ih (start + 1) i lvl t).mp hmem
        exact ⟨j + 1, line', by omega, hget, hent⟩
      · rintro ⟨j, line', hj, hget, hent⟩
        cases j with
        | zero =>
          simp only [List.get?] at hget
          injection hget with hget
          subst hget
          rw [hte] at hent
          cases hent
        | succ j' =>
          exact (ih (start + 1) i lvl t).mpr ⟨j', line', by omega, hget, hent⟩

theorem parseTocAux_start_le (lines : List String) :
    ∀ start, ∀ e ∈ parseTocAux start lines, start ≤ e.1 := by
  induction lines with
  | nil => intro start e he; cases he
  | cons line rest ih =>
    intro start e he
    unfold parseTocAux at he
    cases hte : tocEntry line with
    | some p =>
      rw [hte] at he
      rcases List.mem_cons.mp he with h | h
      · obtain ⟨l0, t0⟩ := p
        rw [h]
      · exact Nat.le_of_succ_le (ih (start + 1) e h)
    | none =>
      rw [hte] at he
      exact Nat.le_of_succ_le (ih (start + 1) e he)

theorem parseTocAux_pairwise (lines : List String) :
    ∀ start, (parseTocAux start lines).Pairwise (fun a b => a.1 < b.1) := by
  induction lines with
  | nil => intro start; exact List.Pairwise.nil
  | cons line rest ih =>
    intro start
    unfold parseTocAux
    cases hte : tocEntry line with
    | some p =>
      obtain ⟨l0, t0⟩ := p
      refine List.Pairwise.cons ?_ (ih (start + 1))
      intro e he
      have := parseTocAux_start_le rest (start + 1) e he
      omega
    | none => exact ih (start + 1)

/-- Claim C7: `parse_toc` returns exactly the lines that, after left-trimming
whitespace, consist of one or more `#` followed by a nonempty trimmed title,
as `(line_number, level, title)` triples in ascending line order, with level
the count of leading `#` and title the trimmed remainder; the bare `###` of
the spec's example is excluded. -/
theorem c7_parse_toc (lines : List String) (i lvl : Nat) (t : String) :
    parse_toc ["# Title", "text", "## Sub", "", "###"] = [(0, 1, "Title"), (2, 2, "Sub")] ∧
    ((i, lvl, t) ∈ parse_toc lines ↔
      ∃ line, lines.get? i = some line ∧ tocSpec line lvl t) ∧
    (parse_toc lines).Pairwise (fun a b => a.1 < b.1) := by
  refine ⟨by decide, ?_, parseTocAux_pairwise lines 0⟩
  rw [show parse_toc lines = parseTocAux 0 lines from rfl, parseTocAux_mem lines 0 i lvl t]
  constructor
  · rintro ⟨j, line, hj, hget, hent⟩
    exact ⟨line, by rw [show i = j by omega]; exact hget,
      (tocEntry_eq_some_iff line lvl t).mp hent⟩
  · rintro ⟨line, hget, hspec⟩
    exact ⟨i, line, by omega, hget, (tocEntry_eq_some_iff line lvl t).mpr hspec⟩

/-- Witness for C7: the heading `"# A"` at line 0 satisfies the TOC
condition. -/
theorem c7_parse_toc_witness :
    ∃ line, (["# A"] : List String).get? 0 = some line ∧ tocSpec line 1 "A" :=
  (c7_parse_toc ["# A"] 0 1 "A").2.1.mp (by decide)

theorem findSub_cons_of_neg (pat : List Char) (c : Char) (cs : List Char)
    (h : startsList pat (c :: cs) = false) :
    findSub pat (c :: cs) = (findSub pat cs).map (· + 1) := by
  rw [show findSub pat (c :: cs) = if startsList pat (c :: cs) = true then some 0
      else (findSub pat cs).map (· + 1) from rfl, h]
  simp

theorem findSub_none_of_head_notMem (p : Char) (ps l : List Char) (h : p ∉ l) :
    findSub (p :: ps) l = none := by
  induction l with
  | nil => rfl
  | cons c cs ih =>
    have hpc : (p == c) = false := by
      have hne : p ≠ c := fun he => h (he ▸ List.mem_cons_self c cs)
      simpa using hne
    have hsl : startsList (p :: ps) (c :: cs) = false := by
      unfold startsList
      rw [hpc]
      rfl
    rw [findSub_cons_of_neg (p :: ps) c cs hsl]
    rw [ih (fun hm => h (List.mem_cons_of_mem c hm))]
    rfl

theorem pySplitOnFuel_of_none (pat l : List Char) (h : findSub pat l = none) :
    ∀ fuel, pySplitOnFuel fuel pat l = [l] := by
  intro fuel
  cases fuel with
  | zero => rfl
  | succ f =>
    rw [show pySplitOnFuel (f + 1) pat l = (match findSub pat l with
        | none => [l]
        | some i => l.take i :: pySplitOnFuel f pat (l.drop (i + pat.length))) from rfl, h]

theorem pySplitOnFuel_succ_some (fuel : Nat) (pat l : List Char) (i : Nat)
    (h : findSub pat l = some i) :
    pySplitOnFuel (fuel + 1) pat l =
      l.take i :: pySplitOnFuel fuel pat (l.drop (i + pat.length)) := by
  rw [show pySplitOnFuel (fuel + 1) pat l = (match findSub pat l with
      | none => [l]
      | some i => l.take i :: pySplitOnFuel fuel pat (l.drop (i + pat.length))) from rfl, h]

/-- Splitting `"--- Page <rest>"` on `"Page "` cuts exactly once, after `"--- "`,
provided `rest` contains no further `P`. -/
theorem pySplitOn_page (X : List Char) (hP : 'P' ∉ X) :
    pySplitOn "Page ".data ("--- Page ".data ++ X) = ["--- ".data, X] := by
  have hlen : ("--- Page ".data ++ X).length = (X.length + 8) + 1 := by
    rw [List.length_append, show ("--- Page ".data).length = 9 from rfl]
    omega
  unfold pySplitOn
  rw [hlen, pySplitOnFuel_succ_some (X.length + 8) _ _ 4 (rfl : findSub "Page ".data
      ("--- Page ".data ++ X) = some 4)]
  rw [show ("--- Page ".data ++ X).take 4 = "--- ".data from rfl,
    show ("--- Page ".data ++ X).drop (4 + "Page ".data.length) = X from rfl]
  have hnone : findSub "Page ".data X = none := by
    rw [show "Page ".data = 'P' :: "age ".data from rfl]
    exact findSub_none_of_head_notMem 'P' "age ".data X hP
  rw [pySplitOnFuel_of_none _ _ hnone]

theorem findSub_dashes (mid : List Char) (hd : ∀ c ∈ mid, c.isDigit = true) :
    findSub " ---".data (mid ++ " ---".data) = some mid.length := by
  induction mid with
  | nil => rfl
  | cons c cs ih =>
    have hcd := hd c (List.mem_cons_self c cs)
    have hc : ((' ' : Char) == c) = false := by
      have hne : (' ' : Char) ≠ c := by
        intro he
        rw [← he] at hcd
        exact absurd hcd (by decide)
      simpa using hne
    have hsl : startsList " ---".data (c :: (cs ++ " ---".data)) = false := by
      rw [show " ---".data = ' ' :: "---".data from rfl]
      unfold startsList
      rw [hc]
      rfl
    rw [List.cons_append, findSub_cons_of_neg _ c _ hsl,
      ih (fun x hx => hd x (List.mem_cons_of_mem c hx))]
    rfl

theorem pySplitOn_dashes (mid : List Char) (hd : ∀ c ∈ mid, c.isDigit = true) :
    pySplitOn " ---".data (mid ++ " ---".data) = [mid, []] := by
  have hlen : (mid ++ " ---".data).length = (mid.length + 3) + 1 := by
    rw [List.length_append, show (" ---".data).length = 4 from rfl]
  unfold pySplitOn
  rw [hlen, pySplitOnFuel_succ_some (mid.length + 3) _ _ mid.length (findSub_dashes mid hd)]
  rw [List.take_left' rfl]
  have hdrop : (mid ++ " ---".data).drop (mid.length + " ---".data.length) = [] := by
    rw [← List.drop_drop, List.drop_left]
    rfl
  rw [hdrop, pySplitOnFuel_of_none _ _ (rfl : findSub " ---".data [] = none)]

theorem pyWsChar_of_digit (c : Char) (h : c.isDigit = true) : pyWsChar c = false := by
  cases hw : pyWsChar c
  · rfl
  · exfalso
    unfold pyWsChar at hw
    simp only [Bool.or_eq_true, decide_eq_true_eq] at hw
    rcases hw with ((((rfl | rfl) | rfl) | rfl) | rfl) | rfl
    all_goals exact absurd h (by decide)

theorem digit_not_special (c : Char) (h : c.isDigit = true) :
    c ≠ '-' ∧ c ≠ '+' ∧ c ≠ '_' := by
  refine ⟨?_, ?_, ?_⟩
  all_goals intro he
  all_goals subst he
  all_goals exact absurd h (by decide)

theorem dropWhile_eq_self_of_head (p : Char → Bool) (l : List Char)
    (h : ∀ c ∈ l.take 1, p c = false) : l.dropWhile p = l := by
  cases l with
  | nil => rfl
  | cons c cs =>
    have hc : p c = false := h c (by simp)
    rw [List.dropWhile_cons, if_neg (by rw [hc]; simp)]

theorem pyStrip_digits (mid : List Char) (hd : ∀ c ∈ mid, c.isDigit = true) :
    pyStrip mid = mid := by
  unfold pyStrip
  have h1 : mid.dropWhile pyWsChar = mid :=
    dropWhile_eq_self_of_head _ _ (fun c hc =>
      pyWsChar_of_digit c (hd c (List.mem_of_mem_take hc)))
  have h2 : mid.reverse.dropWhile pyWsChar = mid.reverse :=
    dropWhile_eq_self_of_head _ _ (fun c hc =>
      pyWsChar_of_digit c (hd c (List.mem_reverse.mp (List.mem_of_mem_take hc))))
  rw [h1, h2, List.reverse_reverse]

theorem validIntTail_digits (l : List Char) (hd : ∀ c ∈ l, c.isDigit = true) :
    validIntTail l = true := by
  induction l with
  | nil => rfl
  | cons c cs ih =>
    have hc := hd c (List.mem_cons_self c cs)
    unfold validIntTail
    rw [if_neg (digit_not_special c hc).2.2, hc,
      ih (fun x hx => hd x (List.mem_cons_of_mem c hx))]
    rfl

theorem pyParseInt_digits (mid : List Char) (hne : mid ≠ [])
    (hd : ∀ c ∈ mid, c.isDigit = true) :
    pyParseInt (String.mk mid) = some (digitsToNat mid) := by
  unfold pyParseInt
  rw [show (String.mk mid).data = mid from rfl, pyStrip_digits mid hd]
  cases mid with
  | nil => exact absurd rfl hne
  | cons c cs =>
    have hc := hd c (List.mem_cons_self c cs)
    obtain ⟨h1, h2, _⟩ := digit_not_special c hc
    have hvt : validIntTail cs = true :=
      validIntTail_digits cs (fun x hx => hd x (List.mem_cons_of_mem c hx))
    have hfil : (c :: cs).filter (· != '_') = c :: cs :=
      List.filter_eq_self.mpr (fun x hx => by
        simpa using (digit_not_special x (hd x hx)).2.2)
    simp [h1, h2, hc, hvt, hfil]

theorem sentinelPageNum_of_decomp (line : String) (mid : List Char)
    (hdata : line.data = "--- Page ".data ++ (mid ++ " ---".data))
    (hne : mid ≠ []) (hd : ∀ c ∈ mid, c.isDigit = true) :
    sentinelPageNum line = some (digitsToNat mid) := by
  have hP : 'P' ∉ mid ++ " ---".data := by
    intro hm
    rcases List.mem_append.mp hm with h | h
    · exact absurd (hd _ h) (by decide)
    · exact absurd h (by decide)
  have hs : startsList "--- Page ".data line.data = true := by
    rw [hdata]
    exact startsList_append _ _
  have he : endsList " ---".data line.data = true := by
    rw [hdata]
    exact (endsList_iff _ _).mpr ⟨"--- Page ".data ++ mid, by rw [List.append_assoc]⟩
  unfold sentinelPageNum
  rw [if_pos (by rw [hs, he]; rfl)]
  rw [hdata, pySplitOn_page (mid ++ " ---".data) hP]
  dsimp only
  rw [pySplitOn_dashes mid hd]
  dsimp only
  exact pyParseInt_digits mid hne hd

theorem sentinelPageNum_guard (line : String) (p : Int)
    (h : sentinelPageNum line = some p) :
    startsList "--- Page ".data line.data = true ∧
      endsList " ---".data line.data = true := by
  by_cases hg : (startsList "--- Page ".data line.data &&
      endsList " ---".data line.data) = true
  · exact Bool.and_eq_true_iff.mp hg
  · unfold sentinelPageNum at h
    rw [if_neg hg] at h
    cases h

theorem isExactSentinel_decomp (line : String) (h : isExactSentinel line = true) :
    line.data = "--- Page ".data ++
      ((line.data.drop 9).take (line.data.length - 13) ++ " ---".data) ∧
    (line.data.drop 9).take (line.data.length - 13) ≠ [] ∧
    (∀ c ∈ (line.data.drop 9).take (line.data.length - 13), c.isDigit = true) := by
  unfold isExactSentinel at h
  simp only [Bool.and_eq_true, decide_eq_true_eq] at h
  obtain ⟨⟨⟨h13, hs⟩, he⟩, hall⟩ := h
  obtain ⟨t0, ht0⟩ := (startsList_iff _ _).mp hs
  obtain ⟨s0, hs0⟩ := (endsList_iff _ _).mp he
  have htk : line.data.take 9 = "--- Page ".data := by
    rw [ht0]
    exact List.take_left' rfl
  have hlen0 : line.data.length = s0.length + 4 := by
    rw [hs0, List.length_append]
    rfl
  have hd4 : line.data.drop s0.length = " ---".data := by
    rw [hs0]
    exact List.drop_left _ _
  have hlen4 : line.data.length - 4 = s0.length := by omega
  have hdd : (line.data.drop 9).drop (line.data.length - 13) =
      line.data.drop (line.data.length - 4) := by
    rw [List.drop_drop]
    congr 1
    omega
  refine ⟨?_, ?_, fun c hc => ?_⟩
  · calc line.data = line.data.take 9 ++ line.data.drop 9 :=
          (List.take_append_drop 9 line.data).symm
      _ = "--- Page ".data ++
            ((line.data.drop 9).take (line.data.length - 13) ++
              (line.data.drop 9).drop (line.data.length - 13)) := by
          rw [htk, List.take_append_drop]
      _ = "--- Page ".data ++
            ((line.data.drop 9).take (line.data.length - 13) ++ " ---".data) := by
          rw [hdd, hlen4, hd4]
  · have hlm : ((line.data.drop 9).take (line.data.length - 13)).length =
        line.data.length - 13 := by
      rw [List.length_take, List.length_drop]
      omega
    intro hnil
    rw [hnil] at hlm
    simp only [List.length_nil] at hlm
    omega
  · exact List.all_eq_true.mp hall c hc

theorem extractPdfPagesAux_mem (lines : List String) :
    ∀ (start : Nat) (p : Int) (i : Nat),
      ((p, i) ∈ extractPdfPagesAux start lines ↔
        ∃ j line, i = start + j ∧ lines.get? j = some line ∧
          sentinelPageNum line = some p) := by
  induction lines with
  | nil =>
    intro start p i
    simp [extractPdfPagesAux]
  | cons line rest ih =>
    intro start p i
    unfold extractPdfPagesAux
    cases hte : sentinelPageNum line with
    | some n =>
      simp only [List.mem_cons]
      constructor
      · rintro (heq | hmem)
        · injection heq with h1 h2
          exact ⟨0, line, by omega, rfl, by rw [hte, h1]⟩
        · obtain ⟨j, line', hj, hget, hent⟩ := (ih (start + 1) p i).mp hmem
          exact ⟨j + 1, line', by omega, hget, hent⟩
      · rintro ⟨j, line', hj, hget, hent⟩
        cases j with
        | zero =>
          left
          simp only [List.get?] at hget
          injection hget with hget
          subst hget
          rw [hte] at hent
          injection hent with hent
          subst hj
          rw [hent]
        | succ j' =>
          right
          exact (ih (start + 1) p i).mpr ⟨j', line', by omega, hget, hent⟩
    | none =>
      constructor
      · intro hmem
        obtain ⟨j, line', hj, hget, hent⟩ := (ih (start + 1) p i).mp hmem
        exact ⟨j + 1, line', by omega, hget, hent⟩
      · rintro ⟨j, line', hj, hget, hent⟩
        cases j with
        | zero =>
          simp only [List.get?] at hget
          injection hget with hget
          subst hget
          rw [hte] at hent
          cases hent
        | succ j' =>
          exact (ih (start + 1) p i).mpr ⟨j', line', by omega, hget, hent⟩

theorem extractPdfPagesAux_start_le (lines : List String) :
    ∀ start, ∀ e ∈ extractPdfPagesAux start lines, start ≤ e.2 := by
  induction lines with
  | nil => intro start e he; cases he
  | cons line rest ih =>
    intro start e he
    unfold extractPdfPagesAux at he
    cases hte : sentinelPageNum line with
    | some n =>
      rw [hte] at he
      rcases List.mem_cons.mp he with h | h
      · rw [h]
      · exact Nat.le_of_succ_le (ih (start + 1) e h)
    | none =>
      rw [hte] at he
      exact Nat.le_of_succ_le (ih (start + 1) e he)

theorem extractPdfPagesAux_pairwise (lines : List String) :
    ∀ start, (extractPdfPagesAux start lines).Pairwise (fun a b => a.2 < b.2) := by
  induction lines with
  | nil => intro start; exact List.Pairwise.nil
  | cons line rest ih =>
    intro start
    unfold extractPdfPagesAux
    cases hte : sentinelPageNum line with
    | some n =>
      refine List.Pairwise.cons ?_ (ih (start + 1))
      intro e he
      have := extractPdfPagesAux_start_le rest (start + 1) e he
      omega
    | none => exact ih (start + 1)

/-- Claim C6 as stated is false: the guard plus `int()` parse accepts lines
that are not exact `"--- Page <digits> ---"` sentinels.  `"--- Page -3 ---"`
yields the entry `(-3, 0)` although its middle is not a digit string. -/
theorem c6_extract_pdf_pages_counterexample :
    extract_pdf_pages ["--- Page -3 ---"] = [(-3, 0)] ∧
      isExactSentinel "--- Page -3 ---" = false := by
  constructor
  · rfl
  · rfl

/-- Claim C6 corrected: every exact sentinel `"--- Page <digits> ---"` line
contributes its `(page, line)` entry; every produced entry comes from a line
passing the `startswith`/`endswith` guard whose extracted segment parses as a
Python integer (a superset of the exact sentinels — signs, inner whitespace
and underscores are accepted); unparsable segments are skipped silently; and
the entries are in ascending line order. -/
theorem c6_extract_pdf_pages (lines : List String) :
    (∀ i line, lines.get? i = some line → isExactSentinel line = true →
      (exactSentinelVal line, i) ∈ extract_pdf_pages lines) ∧
    (∀ p i, (p, i) ∈ extract_pdf_pages lines →
      ∃ line, lines.get? i = some line ∧ sentinelPageNum line = some p ∧
        startsList "--- Page ".data line.data = true ∧
        endsList " ---".data line.data = true) ∧
    (extract_pdf_pages lines).Pairwise (fun a b => a.2 < b.2) := by
  refine ⟨?_, ?_, extractPdfPagesAux_pairwise lines 0⟩
  · intro i line hget hex
    obtain ⟨hdata, hne, hd⟩ := isExactSentinel_decomp line hex
    have hsent : sentinelPageNum line = some (exactSentinelVal line) :=
      sentinelPageNum_of_decomp line _ hdata hne hd
    exact (extractPdfPagesAux_mem lines 0 (exactSentinelVal line) i).mpr
      ⟨i, line, by omega, hget, hsent⟩
  · intro p i hmem
    obtain ⟨j, line, hj, hget, hent⟩ := (extractPdfPagesAux_mem lines 0 p i).mp hmem
    obtain ⟨hs, he⟩ := sentinelPageNum_guard line p hent
    exact ⟨line, by rw [show i = j by omega]; exact hget, hent, hs, he⟩

/-- Witness for C6: the exact sentinel `"--- Page 2 ---"` at line 0 produces
its entry. -/
theorem c6_extract_pdf_pages_witness :
    (["--- Page 2 ---"] : List String).get? 0 = some "--- Page 2 ---" ∧
    isExactSentinel "--- Page 2 ---" = true ∧
    (exactSentinelVal "--- Page 2 ---", 0) ∈ extract_pdf_pages ["--- Page 2 ---"] :=
  ⟨rfl, by decide,
    (c6_extract_pdf_pages ["--- Page 2 ---"]).1 0 "--- Page 2 ---" rfl (by decide)⟩

theorem dropWhile_length_le (p : Char → Bool) (l : List Char) :
    (l.dropWhile p).length ≤ l.length := by
  induction l with
  | nil => exact Nat.le_refl _
  | cons c cs ih =>
    rw [List.dropWhile_cons]
    by_cases hc : p c = true
    · rw [if_pos hc]
      exact Nat.le_succ_of_le ih
    · rw [if_neg hc]

theorem expandTabsFrom_no_tab (l : List Char) : ∀ (col : Nat), '\t' ∉ l →
    expandTabsFrom col l = l := by
  induction l with
  | nil => intro col _; rfl
  | cons c cs ih =>
    intro col h
    unfold expandTabsFrom
    rw [if_neg (fun he => h (by rw [← he]; exact List.mem_cons_self c cs))]
    by_cases hnl : (c = '\n' || c = '\r') = true
    · rw [if_pos hnl, ih 0 (fun hm => h (List.mem_cons_of_mem c hm))]
    · rw [if_neg hnl, ih (col + 1) (fun hm => h (List.mem_cons_of_mem c hm))]

theorem parseWordAux_spec (rest : List Char) : ∀ (left acc : List Char),
    (parseWordAux left acc rest).1 ++ (parseWordAux left acc rest).2 =
      acc.reverse ++ rest ∧
    (parseWordAux left acc rest).2.length ≤ rest.length := by
  induction rest with
  | nil =>
    intro left acc
    exact ⟨by simp [parseWordAux], by simp [parseWordAux]⟩
  | cons c cs ih =>
    intro left acc
    unfold parseWordAux
    by_cases hstop : wordStop left (c :: cs) = true
    · rw [if_pos hstop]
      exact ⟨rfl, Nat.le_refl _⟩
    · rw [if_neg hstop]
      obtain ⟨h1, h2⟩ := ih (c :: left) (c :: acc)
      refine ⟨?_, Nat.le_succ_of_le h2⟩
      rw [h1]
      simp

theorem parseWord_spec (left : List Char) (c : Char) (cs : List Char) :
    (parseWord left (c :: cs)).1 ++ (parseWord left (c :: cs)).2 = c :: cs ∧
    (parseWord left (c :: cs)).2.length ≤ cs.length := by
  unfold parseWord
  obtain ⟨h1, h2⟩ := parseWordAux_spec cs (c :: left) [c]
  exact ⟨by simpa using h1, h2⟩

theorem splitChunksFuel_flatten (fuel : Nat) : ∀ (left l : List Char),
    l.length ≤ fuel → (splitChunksFuel fuel left l).flatten = l := by
  induction fuel with
  | zero =>
    intro left l hl
    have hnil : l = [] := List.length_eq_zero.mp (by omega)
    subst hnil
    rfl
  | succ f ih =>
    intro left l hl
    cases l with
    | nil => rfl
    | cons c cs =>
      unfold splitChunksFuel
      dsimp only
      by_cases hws : pyWsChar c = true
      · rw [if_pos hws]
        rw [List.flatten_cons]
        have hlen' : ((c :: cs).dropWhile pyWsChar).length ≤ f := by
          rw [List.dropWhile_cons, if_pos hws]
          have := dropWhile_length_le pyWsChar cs
          simp only [List.length_cons] at hl
          omega
        rw [ih _ _ hlen']
        exact List.takeWhile_append_dropWhile _ _
      · rw [if_neg hws]
        by_cases hed : emDashCond left (c :: cs) = true
        · rw [if_pos hed]
          rw [List.flatten_cons]
          have hr : 1 ≤ leadingHyphens (c :: cs) := by
            have h2 : (decide (2 ≤ leadingHyphens (c :: cs))) = true := by
              unfold emDashCond at hed
              simp only [Bool.and_eq_true] at hed
              exact hed.1.2
            have := of_decide_eq_true h2
            omega
          have hlen' : ((c :: cs).drop (leadingHyphens (c :: cs))).length ≤ f := by
            rw [List.length_drop]
            simp only [List.length_cons] at hl ⊢
            omega
          rw [ih _ _ hlen']
          exact List.take_append_drop _ _
        · rw [if_neg hed]
          rw [List.flatten_cons]
          obtain ⟨h1, h2⟩ := parseWord_spec left c cs
          have hlen' : (parseWord left (c :: cs)).2.length ≤ f := by
            simp only [List.length_cons] at hl
            omega
          rw [ih _ _ hlen']
          exact h1

theorem splitChunks_flatten (l : List Char) : (splitChunks l).flatten = l :=
  splitChunksFuel_flatten l.length [] l (Nat.le_refl _)

theorem joinLen_nil : joinLen [] = 0 := rfl

theorem joinLen_cons (c : List Char) (cs : List (List Char)) :
    joinLen (c :: cs) = c.length + joinLen cs := by
  simp [joinLen]

theorem joinLen_append (a b : List (List Char)) :
    joinLen (a ++ b) = joinLen a + joinLen b := by
  simp [joinLen]

theorem flatten_length_eq_joinLen (l : List (List Char)) :
    l.flatten.length = joinLen l := by
  simp [joinLen]

theorem greedyTake_append (width : Nat) : ∀ (chunks : List (List Char)) (curLen : Nat),
    (greedyTake width curLen chunks).1 ++ (greedyTake width curLen chunks).2 = chunks := by
  intro chunks
  induction chunks with
  | nil => intro curLen; rfl
  | cons c cs ih =>
    intro curLen
    unfold greedyTake
    by_cases h : curLen + c.length ≤ width
    · rw [if_pos h]
      simp only [List.cons_append]
      rw [ih (curLen + c.length)]
    · rw [if_neg h]
      rfl

theorem greedyTake_len (width : Nat) : ∀ (chunks : List (List Char)) (curLen : Nat),
    curLen ≤ width → curLen + joinLen (greedyTake width curLen chunks).1 ≤ width := by
  intro chunks
  induction chunks with
  | nil =>
    intro curLen h
    simpa [greedyTake, joinLen] using h
  | cons c cs ih =>
    intro curLen h
    unfold greedyTake
    by_cases hc : curLen + c.length ≤ width
    · rw [if_pos hc]
      have := ih (curLen + c.length) hc
      simp only [joinLen_cons]
      omega
    · rw [if_neg hc]
      simpa [joinLen] using h

theorem greedyTake_reject (width : Nat) :
    ∀ (chunks : List (List Char)) (curLen : Nat) (c : List Char) (cs : List (List Char)),
      (greedyTake width curLen chunks).2 = c :: cs →
      ¬(curLen + joinLen (greedyTake width curLen chunks).1 + c.length ≤ width) := by
  intro chunks
  induction chunks with
  | nil =>
    intro curLen c cs h
    cases h
  | cons c0 cs0 ih =>
    intro curLen c cs h
    unfold greedyTake at h ⊢
    by_cases hc : curLen + c0.length ≤ width
    · rw [if_pos hc] at h ⊢
      have := ih (curLen + c0.length) c cs h
      simp only [joinLen_cons]
      omega
    · rw [if_neg hc] at h ⊢
      injection h with h1 _
      subst h1
      simp only [joinLen_nil]
      omega

theorem pyRFind_lt (c : Char) (l : List Char) (bound h : Nat)
    (hf : pyRFind c l bound = some h) : h < bound := by
  unfold pyRFind at hf
  have hmem := List.mem_of_find?_eq_some hf
  rw [List.mem_reverse] at hmem
  exact List.mem_range.mp hmem

theorem longWordEnd_le (width curLen : Nat) (chunk : List Char)
    (hw : 1 ≤ width) (hc : curLen ≤ width) :
    longWordEnd width curLen chunk ≤ width - curLen := by
  unfold longWordEnd
  rw [if_neg (by omega : ¬(width < 1))]
  by_cases hlt : width - curLen < chunk.length
  · rw [if_pos hlt]
    cases hrf : pyRFind '-' chunk (width - curLen) with
    | none =>
      dsimp only
      exact Nat.le_refl _
    | some h =>
      dsimp only
      by_cases hcond : (decide (0 < h) && (chunk.take h).any (· != '-')) = true
      · rw [if_pos hcond]
        have := pyRFind_lt '-' chunk (width - curLen) h hrf
        omega
      · rw [if_neg hcond]
  · rw [if_neg hlt]

theorem longWordEnd_pos (width : Nat) (chunk : List Char) (hw : 1 ≤ width) :
    1 ≤ longWordEnd width 0 chunk := by
  unfold longWordEnd
  rw [if_neg (by omega : ¬(width < 1))]
  by_cases hlt : width - 0 < chunk.length
  · rw [if_pos hlt]
    cases hrf : pyRFind '-' chunk (width - 0) with
    | none =>
      dsimp only
      omega
    | some h =>
      dsimp only
      by_cases hcond : (decide (0 < h) && (chunk.take h).any (· != '-')) = true
      · rw [if_pos hcond]
        omega
      · rw [if_neg hcond]
        omega
  · rw [if_neg hlt]
    omega

theorem chunksSize_append (a b : List (List Char)) :
    chunksSize (a ++ b) = chunksSize a + chunksSize b := by
  simp [chunksSize]

theorem chunksSize_cons (c : List Char) (cs : List (List Char)) :
    chunksSize (c :: cs) = (c.length + 1) + chunksSize cs := by
  simp [chunksSize]

theorem wrapStep_flatten (width : Nat) (chunks : List (List Char)) :
    (wrapStep width chunks).1.flatten ++ (wrapStep width chunks).2.flatten =
      chunks.flatten := by
  have hga := greedyTake_append width chunks 0
  unfold wrapStep
  cases hg : greedyTake width 0 chunks with
  | mk cur rest =>
    rw [hg] at hga
    dsimp only at hga
    cases rest with
    | nil =>
      dsimp only
      rw [List.append_nil] at hga
      rw [List.flatten_nil, List.append_nil, hga]
    | cons c cs =>
      dsimp only
      by_cases hlen : width < c.length
      · rw [if_pos hlen]
        dsimp only
        rw [← hga]
        have hpr : (handleLongWord width (joinLen cur) c).1 ++
            (handleLongWord width (joinLen cur) c).2 = c := List.take_append_drop _ _
        simp only [List.flatten_append, List.flatten_cons, List.flatten_nil,
          List.append_nil, List.append_assoc]
        rw [← List.append_assoc (handleLongWord width (joinLen cur) c).1
          (handleLongWord width (joinLen cur) c).2 cs.flatten, hpr]
      · rw [if_neg hlen]
        dsimp only
        rw [← hga]
        simp [List.flatten_append]

theorem wrapStep_size (width : Nat) (chunks : List (List Char)) (hw : 1 ≤ width)
    (hne : chunks ≠ []) :
    chunksSize (wrapStep width chunks).2 < chunksSize chunks := by
  have hga := greedyTake_append width chunks 0
  unfold wrapStep
  cases hg : greedyTake width 0 chunks with
  | mk cur rest =>
    rw [hg] at hga
    dsimp only at hga
    cases rest with
    | nil =>
      dsimp only
      rw [List.append_nil] at hga
      subst hga
      cases cur with
      | nil => exact absurd rfl hne
      | cons c0 cs0 =>
        rw [chunksSize_cons]
        show 0 < _
        omega
    | cons c cs =>
      dsimp only
      have hrej := greedyTake_reject width chunks 0 c cs (by rw [hg])
      rw [hg] at hrej
      dsimp only at hrej
      by_cases hlen : width < c.length
      · rw [if_pos hlen]
        dsimp only
        rw [← hga, chunksSize_append, chunksSize_cons, chunksSize_cons]
        have hdl : (handleLongWord width (joinLen cur) c).2.length =
            c.length - longWordEnd width (joinLen cur) c := List.length_drop _ _
        cases cur with
        | nil =>
          have hpos : 1 ≤ longWordEnd width 0 c := longWordEnd_pos width c hw
          simp only [joinLen_nil] at hdl ⊢
          rw [hdl]
          omega
        | cons c0 cs0 =>
          have hle : (handleLongWord width (joinLen (c0 :: cs0)) c).2.length ≤ c.length := by
            rw [hdl]
            omega
          rw [chunksSize_cons]
          omega
      · rw [if_neg hlen]
        dsimp only
        rw [← hga, chunksSize_append, chunksSize_cons]
        cases cur with
        | nil =>
          exfalso
          rw [joinLen_nil] at hrej
          omega
        | cons c0 cs0 =>
          rw [chunksSize_cons]
          omega

theorem wrapStep_line_le (width : Nat) (chunks : List (List Char)) (hw : 1 ≤ width) :
    joinLen (wrapStep width chunks).1 ≤ width := by
  have hgl := greedyTake_len width chunks 0 (by omega)
  unfold wrapStep
  cases hg : greedyTake width 0 chunks with
  | mk cur rest =>
    rw [hg] at hgl
    dsimp only at hgl
    cases rest with
    | nil => simpa using hgl
    | cons c cs =>
      dsimp only
      by_cases hlen : width < c.length
      · rw [if_pos hlen]
        dsimp only
        rw [joinLen_append, joinLen_cons, joinLen_nil]
        have hcur : joinLen cur ≤ width := by omega
        have hpl : (handleLongWord width (joinLen cur) c).1.length ≤
            width - joinLen cur := by
          have h1 : (handleLongWord width (joinLen cur) c).1.length ≤
              longWordEnd width (joinLen cur) c := List.length_take_le _ _
          have h2 := longWordEnd_le width (joinLen cur) c hw hcur
          omega
        omega
      · rw [if_neg hlen]
        dsimp only
        omega

theorem wrapChunksFuel_flatten (fuel : Nat) : ∀ (width : Nat) (chunks : List (List Char)),
    1 ≤ width → chunksSize chunks ≤ fuel →
    (wrapChunksFuel fuel width chunks).flatten = chunks.flatten := by
  induction fuel with
  | zero =>
    intro width chunks hw hsz
    cases chunks with
    | nil => rfl
    | cons c cs =>
      rw [chunksSize_cons] at hsz
      omega
  | succ f ih =>
    intro width chunks hw hsz
    cases chunks with
    | nil => rfl
    | cons ch chs =>
      unfold wrapChunksFuel
      dsimp only
      have hstep := wrapStep_flatten width (ch :: chs)
      have hsz' : chunksSize (wrapStep width (ch :: chs)).2 ≤ f := by
        have := wrapStep_size width (ch :: chs) hw (by simp)
        omega
      rw [List.flatten_append, ih width _ hw hsz']
      by_cases hemp : (wrapStep width (ch :: chs)).1.isEmpty = true
      · rw [if_pos hemp]
        have h1 : (wrapStep width (ch :: chs)).1 = [] := List.isEmpty_iff.mp hemp
        rw [h1] at hstep
        simpa using hstep
      · rw [if_neg hemp]
        simpa using hstep

theorem wrapChunksFuel_line_le (fuel : Nat) : ∀ (width : Nat) (chunks : List (List Char)),
    1 ≤ width → chunksSize chunks ≤ fuel →
    ∀ line ∈ wrapChunksFuel fuel width chunks, line.length ≤ width := by
  induction fuel with
  | zero =>
    intro width chunks hw hsz line hline
    cases chunks with
    | nil => cases hline
    | cons c cs =>
      rw [chunksSize_cons] at hsz
      omega
  | succ f ih =>
    intro width chunks hw hsz line hline
    cases chunks with
    | nil => cases hline
    | cons ch chs =>
      unfold wrapChunksFuel at hline
      dsimp only at hline
      have hsz' : chunksSize (wrapStep width (ch :: chs)).2 ≤ f := by
        have := wrapStep_size width (ch :: chs) hw (by simp)
        omega
      rcases List.mem_append.mp hline with hmem | hmem
      · by_cases hemp : (wrapStep width (ch :: chs)).1.isEmpty = true
        · rw [if_pos hemp] at hmem
          cases hmem
        · rw [if_neg hemp] at hmem
          rw [List.mem_singleton] at hmem
          subst hmem
          rw [flatten_length_eq_joinLen]
          exact wrapStep_line_le width (ch :: chs) hw
      · exact ih width _ hw hsz' line hmem

/-- Claim C1 as stated is false: `textwrap` is called with the default
`break_long_words=True`, so a word longer than the width does not occupy its
own line unmodified — it is broken into width-sized pieces.  At width 3 the
single word `"abcdef"` wraps to `["abc", "def"]`. -/
theorem c1_wrap_text_counterexample :
    wrap_text "abcdef" 3 = ["abc", "def"] ∧
      ("abcdef" : String) ∉ wrap_text "abcdef" 3 ∧
      3 < ("abcdef" : String).length := by
  refine ⟨rfl, by decide, by decide⟩

/-- Claim C1 corrected: for `width ≥ 1` and a paragraph without tab
characters (tabs are expanded to 8-column stops before splitting),
concatenating the wrapped lines reconstructs the paragraph exactly — no
whitespace is dropped or collapsed — and no wrapped line ever exceeds the
width; a word longer than the width is broken, not kept unmodified. -/
theorem c1_wrap_text_amended (text : String) (width : Nat) (hw : 1 ≤ width)
    (ht : '\t' ∉ text.data) :
    ((wrap_text text width).map String.data).flatten = text.data ∧
    ∀ line ∈ wrap_text text width, line.length ≤ width := by
  constructor
  · unfold wrap_text wrapChunks
    rw [List.map_map]
    rw [show (String.data ∘ String.mk) = fun l => l from rfl, List.map_id']
    rw [wrapChunksFuel_flatten _ width _ hw (Nat.le_refl _)]
    rw [splitChunks_flatten, expandTabsFrom_no_tab text.data 0 ht]
  · intro line hline
    unfold wrap_text wrapChunks at hline
    rw [List.mem_map] at hline
    obtain ⟨l, hl, rfl⟩ := hline
    have := wrapChunksFuel_line_le _ width _ hw (Nat.le_refl _) l hl
    simpa [String.length] using this

/-- Witness for C1's amended claim at a concrete paragraph and width. -/
theorem c1_wrap_text_amended_witness :
    1 ≤ 7 ∧ '\t' ∉ ("hi there world" : String).data ∧
    ((wrap_text "hi there world" 7).map String.data).flatten =
      ("hi there world" : String).data ∧
    ∀ line ∈ wrap_text "hi there world" 7, line.length ≤ 7 :=
  ⟨by decide, by decide,
    (c1_wrap_text_amended "hi there world" 7 (by decide) (by decide)).1,
    (c1_wrap_text_amended "hi there world" 7 (by decide) (by decide)).2⟩

end TuiReader
